import Mathlib

/-!
Verification of the schedule-generation engine of the Golf-Scheduler repository
(`src/main.py`).  The engine is `create_schedule` (main.py lines 44-103) over the
`Employee` class (lines 28-42), together with the calendar expansion it relies on
(`calendar.monthrange` / `calendar.monthcalendar`, Python standard library with
the default first weekday = Monday) and the per-run working copy made by the
caller (`main`, lines 410-417).

Modelling choices:
* A Python `datetime.date` is a `(year, month, day)` triple compared
  componentwise; the engine only ever builds dates `date(year, month, day_num)`
  and compares them against the stored constraint pairs.
* Python `Employee` objects have identity semantics (`in` on lists of employees
  falls back to `is`-style default equality).  A roster is a `List Employee` and
  an employee is referred to by its position in that list; the source never puts
  the same object twice into the roster (`main` builds one fresh object per
  entry), so positions model object identities faithfully.
* `schedule` is a `defaultdict(dict)`; both levels are insertion-ordered maps,
  modelled as association lists with update-in-place-or-append semantics.
* `list.sort(key=...)` is Python's stable sort, modelled by a stable Lean sort
  on the comparison `key i ≤ key j` (see `sort_by_shifts`).
* The `IndexError` raised by `month_cal[week]` for an out-of-range week index
  (the spec's `InvalidPeriod`) is modelled by returning `none`.
* `mandatory_assignments` is precomputed in the source (lines 57-66) into a dict
  keyed by `(day_num, shift)` before the main loop; since the loop never mutates
  `mandatory_dates` (only `assigned_shifts`), looking the list up lazily at each
  slot (`mandatory_for` below) yields exactly the same list, a fact proved as
  `fields_run_days` / `mandatory_for_congr` below.
-/

namespace Scheduler

open List

/-- A Python `datetime.date`: `(year, month, day)`, compared componentwise. -/
abbrev Date := Nat × Nat × Nat

/-- `Employee.__init__` (main.py lines 28-33): name, the two constraint lists of
`(date, shift)` pairs, and the per-run mutable `assigned_shifts` list of
`(day_num, shift)` pairs. -/
structure Employee where
  name : String
  unavailable_dates : List (Date × String)
  mandatory_dates : List (Date × String)
  assigned_shifts : List (Nat × String)
deriving DecidableEq, Repr

instance : Inhabited Employee := ⟨⟨"", [], [], []⟩⟩

/-- `Employee.is_available` (lines 34-39): available unless this exact
`(date, shift)` pair is in `unavailable_dates`. -/
def Employee.is_available (e : Employee) (date_obj : Date) (shift : String) : Bool :=
  if (date_obj, shift) ∈ e.unavailable_dates then false else true

/-- `Employee.must_work` (lines 40-42): `(date, shift) in self.mandatory_dates`. -/
def Employee.must_work (e : Employee) (date_obj : Date) (shift : String) : Bool :=
  decide ((date_obj, shift) ∈ e.mandatory_dates)

/-! ### Calendar (Python `calendar` module, firstweekday = Monday) -/

/-- Gregorian leap-year test (`calendar.isleap`). -/
def leapyear (y : Nat) : Bool := (y % 4 == 0 && y % 100 != 0) || (y % 400 == 0)

/-- Month lengths of a non-leap year. -/
def month_len : List Nat := [31, 28, 31, 30, 31, 30, 31, 31, 30, 31, 30, 31]

/-- `calendar.monthrange(year, month)[1]`: the number of days in the month. -/
def days_in_month (year month : Nat) : Nat :=
  if month == 2 && leapyear year then 29 else month_len.getD (month - 1) 0

/-- Days in the proleptic Gregorian calendar before January 1 of `year`
(as in CPython's `datetime`). -/
def days_before_year (year : Nat) : Nat :=
  let n := year - 1
  n * 365 + n / 4 - n / 100 + n / 400

/-- Days in `year` before the first of `month`. -/
def days_before_month (year month : Nat) : Nat :=
  (month_len.take (month - 1)).sum + (if 2 < month && leapyear year then 1 else 0)

/-- Proleptic Gregorian ordinal of a date; `toordinal 1 1 1 = 1`. -/
def toordinal (year month day : Nat) : Nat :=
  days_before_year year + days_before_month year month + day

/-- `calendar.weekday(year, month, day)`: Monday = 0 .. Sunday = 6. -/
def weekday (year month day : Nat) : Nat :=
  (toordinal year month day + 6) % 7

/-- Split a flat list into rows of 7, with explicit fuel to keep the recursion
structural (the fuel `l.length` used below never runs out, since each step
strictly shortens the list). -/
def chunk7_go : Nat → List Nat → List (List Nat)
  | _, [] => []
  | 0, _ :: _ => []
  | fuel + 1, a :: rest => ((a :: rest).take 7) :: chunk7_go fuel ((a :: rest).drop 7)

/-- Split a flat list into rows of 7 (the month grid rows). -/
def chunk7 (l : List Nat) : List (List Nat) := chunk7_go l.length l

/-- `calendar.monthcalendar(year, month)`: the weekday-aligned month grid, one
row per week, Monday first, out-of-month cells equal to `0`. -/
def monthcalendar (year month : Nat) : List (List Nat) :=
  let w := weekday year month 1
  let n := days_in_month year month
  let pad := (7 - (w + n) % 7) % 7
  chunk7 (List.replicate w 0 ++ List.range' 1 n ++ List.replicate pad 0)

/-- Lines 45-54 of `create_schedule`: the days to schedule.  `none` models the
`IndexError` raised by `month_cal[week]` when the week index has no grid row
(the spec's `InvalidPeriod`). -/
def days_to_schedule (year month : Nat) (week : Option Nat) : Option (List Nat) :=
  match week with
  | some w =>
    let month_cal := monthcalendar year month
    if h : w < month_cal.length then
      some ((month_cal.get ⟨w, h⟩).filter (fun day => day != 0))
    else none
  | none => some (List.range' 1 (days_in_month year month))

/-! ### The assignment loop (lines 55-103) -/

/-- Roster access by object identity (= position).  All positions used by the
engine are in range; the default is irrelevant. -/
def getE (employees : List Employee) (i : Nat) : Employee := employees.getD i default

/-- The immutable part of an employee (everything except `assigned_shifts`). -/
def fields (e : Employee) : String × List (Date × String) × List (Date × String) :=
  (e.name, e.unavailable_dates, e.mandatory_dates)

/-- Lines 57-66: the `mandatory_assignments` entry for one `(day, shift)` key:
the employees (by roster position, in roster order) whose `must_work` holds for
this exact date and shift. -/
def mandatory_for (employees : List Employee) (date_obj : Date) (shift : String) : List Nat :=
  (List.range employees.length).filter (fun i => (getE employees i).must_work date_obj shift)

/-- The comparison `len(e.assigned_shifts) <= len(e'.assigned_shifts)` of the
sort key used on lines 78 and 94, on roster positions. -/
def shifts_le (employees : List Employee) (i j : Nat) : Prop :=
  (getE employees i).assigned_shifts.length ≤ (getE employees j).assigned_shifts.length

instance (employees : List Employee) : DecidableRel (shifts_le employees) :=
  fun _ _ => Nat.decLe _ _

instance (employees : List Employee) : IsTotal Nat (shifts_le employees) :=
  ⟨fun _ _ => Nat.le_total _ _⟩

instance (employees : List Employee) : IsTrans Nat (shifts_le employees) :=
  ⟨fun _ _ _ => Nat.le_trans⟩

/-- `xs.sort(key=lambda e: len(e.assigned_shifts))` (lines 78 and 94): Python's
`list.sort` is a stable sort by the key, and a stable sort by a key is uniquely
determined by its input (ascending key order, ties in input order), so any
stable sorting algorithm models it exactly; we use insertion sort, which is
structurally recursive (hence kernel-computable) and stable
(`List.sublist_insertionSort`). -/
def sort_by_shifts (employees : List Employee) (l : List Nat) : List Nat :=
  l.insertionSort (shifts_le employees)

/-- The days on which an employee already has a shift:
`[s[0] for s in e.assigned_shifts]` (line 90). -/
def assigned_days (e : Employee) : List Nat := e.assigned_shifts.map (fun s => s.1)

/-- Lines 74-96: the selection (roster positions, in selection order) for one
`(day_num, shift)` slot, given the current roster state. -/
def select_for_slot (year month people_per_shift : Nat) (employees : List Employee)
    (day_num : Nat) (shift : String) : List Nat :=
  let current_date : Date := (year, month, day_num)
  let mandatory_emps := mandatory_for employees current_date shift
  if people_per_shift ≤ mandatory_emps.length then
    (sort_by_shifts employees mandatory_emps).take people_per_shift
  else
    let selected := mandatory_emps
    let remaining_spots := people_per_shift - selected.length
    if 0 < remaining_spots then
      let available_employees := (List.range employees.length).filter (fun i =>
        (getE employees i).is_available current_date shift &&
        !((assigned_days (getE employees i)).contains day_num) &&
        !(selected.contains i))
      selected ++ (sort_by_shifts employees available_employees).take remaining_spots
    else selected

/-- The sentinel value for an unfillable slot (line 98). -/
def Sentinel : String := "No Available Employee"

/-- Lines 101-102: append `(day_num, shift)` to `assigned_shifts` of every
selected employee. -/
def record_assignments (employees : List Employee) (selected : List Nat)
    (day_num : Nat) (shift : String) : List Employee :=
  selected.foldl (fun emps i =>
    emps.set i { getE emps i with assigned_shifts := (getE emps i).assigned_shifts ++ [(day_num, shift)] })
    employees

/-- Lines 74-102 for one slot: the slot's Assignment value and the roster state
after the slot.  An empty selection yields the sentinel and leaves the roster
untouched (lines 97-99). -/
def process_slot (year month people_per_shift : Nat) (employees : List Employee)
    (day_num : Nat) (shift : String) : List String × List Employee :=
  let selected := select_for_slot year month people_per_shift employees day_num shift
  if selected = [] then ([Sentinel], employees)
  else (selected.map (fun i => (getE employees i).name),
        record_assignments employees selected day_num shift)

/-! ### The schedule dictionary (`defaultdict(dict)`) -/

/-- Lookup in an insertion-ordered map (association list). -/
def dlookup {κ α : Type} [DecidableEq κ] : List (κ × α) → κ → Option α
  | [], _ => none
  | (k, v) :: rest, key => if k = key then some v else dlookup rest key

/-- `m[key] = v` on an insertion-ordered map: update in place if present,
else append. -/
def dset {κ α : Type} [DecidableEq κ] : List (κ × α) → κ → α → List (κ × α)
  | [], key, v => [(key, v)]
  | (k, v') :: rest, key, v =>
    if k = key then (k, v) :: rest else (k, v') :: dset rest key v

/-- The inner map of one day: shift name to Assignment. -/
abbrev DayMap := List (String × List String)

/-- `schedule`: day number to `DayMap`, insertion-ordered. -/
abbrev Schedule := List (Nat × DayMap)

/-- `schedule[day_num][shift] = names` on a `defaultdict(dict)`. -/
def sched_set (schedule : Schedule) (day_num : Nat) (shift : String)
    (names : List String) : Schedule :=
  dset schedule day_num (dset ((dlookup schedule day_num).getD []) shift names)

/-- Slot lookup in the final schedule (a missing day behaves like the empty
inner dict, exactly as for `defaultdict`). -/
def sched_get (schedule : Schedule) (day_num : Nat) (shift : String) : Option (List String) :=
  dlookup ((dlookup schedule day_num).getD []) shift

/-! ### The main loop (lines 70-103) -/

/-- One iteration of the inner `for shift in shifts_per_day` loop. -/
def run_shift (year month people_per_shift : Nat) (day_num : Nat)
    (st : Schedule × List Employee) (shift : String) : Schedule × List Employee :=
  let res := process_slot year month people_per_shift st.2 day_num shift
  (sched_set st.1 day_num shift res.1, res.2)

/-- One iteration of the outer `for day_num in days_to_schedule` loop. -/
def run_day (year month people_per_shift : Nat) (shifts_per_day : List String)
    (st : Schedule × List Employee) (day_num : Nat) : Schedule × List Employee :=
  shifts_per_day.foldl (run_shift year month people_per_shift day_num) st

/-- The whole double loop, starting from the empty schedule. -/
def run_days (year month people_per_shift : Nat) (shifts_per_day : List String)
    (days : List Nat) (employees : List Employee) : Schedule × List Employee :=
  days.foldl (run_day year month people_per_shift shifts_per_day) ([], employees)

/-- `create_schedule(employees, shifts_per_day, people_per_shift, month, year, week)`
(lines 44-103).  Returns the schedule together with the final roster state (the
mutated `assigned_shifts` of the working employees); `none` models the
`IndexError` (`InvalidPeriod`) for a week index without a grid row. -/
def create_schedule (employees : List Employee) (shifts_per_day : List String)
    (people_per_shift : Nat) (month year : Nat) (week : Option Nat) :
    Option (Schedule × List Employee) :=
  (days_to_schedule year month week).map
    (fun days => run_days year month people_per_shift shifts_per_day days employees)

/-- The fresh working copy per run made by the caller (`main`, lines 410-417):
same name and constraint lists, empty `assigned_shifts`. -/
def working_copy (e : Employee) : Employee :=
  { name := e.name
    unavailable_dates := e.unavailable_dates
    mandatory_dates := e.mandatory_dates
    assigned_shifts := [] }

/-- One full engine invocation as performed by `main` (lines 410-427): build the
per-run working copies, then run `create_schedule` on them. -/
def generate_schedule (employees : List Employee) (shifts_per_day : List String)
    (people_per_shift : Nat) (month year : Nat) (week : Option Nat) :
    Option (Schedule × List Employee) :=
  create_schedule (employees.map working_copy) shifts_per_day people_per_shift month year week

/-! ### Basic lemmas: the insertion-ordered maps -/

theorem dlookup_dset_self {κ α : Type} [DecidableEq κ] (l : List (κ × α)) (k : κ) (v : α) :
    dlookup (dset l k v) k = some v := by
  induction l with
  | nil => simp [dset, dlookup]
  | cons p rest ih =>
    obtain ⟨k', v'⟩ := p
    by_cases h : k' = k <;> simp [dset, dlookup, h, ih]

theorem dlookup_dset_ne {κ α : Type} [DecidableEq κ] (l : List (κ × α)) (k k' : κ) (v : α)
    (h : k' ≠ k) : dlookup (dset l k v) k' = dlookup l k' := by
  induction l with
  | nil =>
    simp only [dset, dlookup]
    rw [if_neg (fun he => h he.symm)]
  | cons p rest ih =>
    obtain ⟨k₀, v₀⟩ := p
    simp only [dset]
    by_cases h₀ : k₀ = k
    · rw [if_pos h₀]
      subst h₀
      simp only [dlookup]
      rw [if_neg (fun he => h he.symm), if_neg (fun he => h he.symm)]
    · rw [if_neg h₀]
      simp only [dlookup, ih]

theorem mem_dset {κ α : Type} [DecidableEq κ] {l : List (κ × α)} {k : κ} {v : α}
    {p : κ × α} (hp : p ∈ dset l k v) : p = (k, v) ∨ p ∈ l := by
  induction l with
  | nil => simpa [dset] using hp
  | cons q rest ih =>
    obtain ⟨k₀, v₀⟩ := q
    by_cases h₀ : k₀ = k
    · subst h₀
      rcases (by simpa [dset] using hp : p = (k₀, v) ∨ p ∈ rest) with h | h
      · exact Or.inl (by simp [h])
      · exact Or.inr (List.mem_cons_of_mem _ h)
    · rcases (by simpa [dset, h₀] using hp : p = (k₀, v₀) ∨ p ∈ dset rest k v) with h | h
      · exact Or.inr (by simp [h])
      · rcases ih h with h' | h'
        · exact Or.inl h'
        · exact Or.inr (List.mem_cons_of_mem _ h')

theorem keys_dset {κ α : Type} [DecidableEq κ] (l : List (κ × α)) (k k' : κ) (v : α) :
    k' ∈ (dset l k v).map Prod.fst ↔ k' ∈ l.map Prod.fst ∨ k' = k := by
  induction l with
  | nil => simp [dset]
  | cons p rest ih =>
    obtain ⟨k₀, v₀⟩ := p
    by_cases h₀ : k₀ = k
    · subst h₀; simp only [dset, if_pos rfl]
      constructor
      · rintro h; rcases (by simpa using h) with h | h
        · exact Or.inl (by simp [h])
        · exact Or.inl (by simp [h])
      · rintro (h | h)
        · rcases (by simpa using h) with h | h
          · simp [h]
          · simp [h]
        · simp [h]
    · simp only [dset, if_neg h₀, List.map_cons, List.mem_cons, ih]
      tauto

/-- Case analysis for one `schedule[day][shift] = v` write. -/
theorem sched_get_sched_set (sch : Schedule) (d : Nat) (s : String) (v : List String)
    (d' : Nat) (s' : String) :
    sched_get (sched_set sch d s v) d' s' =
      if d' = d ∧ s' = s then some v
      else sched_get sch d' s' := by
  unfold sched_get sched_set
  by_cases hd : d' = d
  · subst hd
    rw [dlookup_dset_self]
    by_cases hs : s' = s
    · subst hs
      rw [if_pos ⟨rfl, rfl⟩]
      simp only [Option.getD_some]
      exact dlookup_dset_self _ _ _
    · rw [if_neg (by tauto)]
      simp only [Option.getD_some]
      exact dlookup_dset_ne _ _ _ _ hs
  · rw [if_neg (by tauto), dlookup_dset_ne _ _ _ _ hd]

/-! ### Basic lemmas: the roster state -/

/-- Two roster states agreeing on everything except `assigned_shifts`. -/
def FieldsEq (r r' : List Employee) : Prop := r.map fields = r'.map fields

theorem FieldsEq.refl (r : List Employee) : FieldsEq r r := rfl

theorem FieldsEq.trans {r₁ r₂ r₃ : List Employee} (h₁ : FieldsEq r₁ r₂)
    (h₂ : FieldsEq r₂ r₃) : FieldsEq r₁ r₃ := Eq.trans h₁ h₂

theorem FieldsEq.length_eq {r r' : List Employee} (h : FieldsEq r r') :
    r.length = r'.length := by
  have := congrArg List.length h
  simpa using this

theorem map_getD {α β : Type} (f : α → β) (l : List α) (i : Nat) (d : α) :
    f (l.getD i d) = (l.map f).getD i (f d) := by
  induction l generalizing i with
  | nil => simp
  | cons a t ih => cases i <;> simp [ih]

theorem FieldsEq.fields_getE {r r' : List Employee} (h : FieldsEq r r') (i : Nat) :
    fields (getE r i) = fields (getE r' i) := by
  unfold getE
  rw [map_getD fields r, map_getD fields r', h]

theorem FieldsEq.name_getE {r r' : List Employee} (h : FieldsEq r r') (i : Nat) :
    (getE r i).name = (getE r' i).name :=
  congrArg (fun p => p.1) (h.fields_getE i)

theorem FieldsEq.unavailable_getE {r r' : List Employee} (h : FieldsEq r r') (i : Nat) :
    (getE r i).unavailable_dates = (getE r' i).unavailable_dates :=
  congrArg (fun p => p.2.1) (h.fields_getE i)

theorem FieldsEq.mandatory_getE {r r' : List Employee} (h : FieldsEq r r') (i : Nat) :
    (getE r i).mandatory_dates = (getE r' i).mandatory_dates :=
  congrArg (fun p => p.2.2) (h.fields_getE i)

theorem mandatory_for_congr {r r' : List Employee} (h : FieldsEq r r')
    (date_obj : Date) (shift : String) :
    mandatory_for r date_obj shift = mandatory_for r' date_obj shift := by
  unfold mandatory_for
  rw [h.length_eq]
  exact List.filter_congr fun i _ => by
    unfold Employee.must_work
    rw [h.mandatory_getE i]

theorem set_getD_self {α : Type} (l : List α) (i : Nat) (d : α) :
    l.set i (l.getD i d) = l := by
  induction l generalizing i with
  | nil => simp
  | cons a t ih =>
    cases i with
    | zero => simp
    | succ n =>
      simp only [List.getD_cons_succ, List.set_cons_succ, List.cons.injEq, true_and]
      exact ih n

/-- Appending a slot to one employee's `assigned_shifts` keeps all fields. -/
theorem fields_set_step (emps : List Employee) (i : Nat) (day_num : Nat) (shift : String) :
    (emps.set i { getE emps i with
        assigned_shifts := (getE emps i).assigned_shifts ++ [(day_num, shift)] }).map fields
      = emps.map fields := by
  rw [List.map_set]
  have h1 : fields { getE emps i with
      assigned_shifts := (getE emps i).assigned_shifts ++ [(day_num, shift)] }
      = fields (getE emps i) := rfl
  rw [h1, show fields (getE emps i) = (emps.map fields).getD i (fields default) from
    map_getD fields emps i default]
  exact set_getD_self _ _ _

theorem fields_record_assignments (emps : List Employee) (selected : List Nat)
    (day_num : Nat) (shift : String) :
    FieldsEq (record_assignments emps selected day_num shift) emps := by
  unfold FieldsEq record_assignments
  induction selected generalizing emps with
  | nil => rfl
  | cons i rest ih =>
    rw [List.foldl_cons]
    exact (ih _).trans (fields_set_step emps i day_num shift)

theorem fields_process_slot (year month people_per_shift : Nat) (emps : List Employee)
    (day_num : Nat) (shift : String) :
    FieldsEq (process_slot year month people_per_shift emps day_num shift).2 emps := by
  unfold process_slot
  by_cases h : select_for_slot year month people_per_shift emps day_num shift = []
  · simp only [h, if_pos rfl]; exact FieldsEq.refl emps
  · simp only [if_neg h]
    exact fields_record_assignments _ _ _ _

theorem fields_run_shift (year month people_per_shift day_num : Nat)
    (st : Schedule × List Employee) (shift : String) :
    FieldsEq (run_shift year month people_per_shift day_num st shift).2 st.2 :=
  fields_process_slot year month people_per_shift st.2 day_num shift

theorem fields_run_day (year month people_per_shift : Nat) (shifts_per_day : List String)
    (st : Schedule × List Employee) (day_num : Nat) :
    FieldsEq (run_day year month people_per_shift shifts_per_day st day_num).2 st.2 := by
  unfold run_day
  induction shifts_per_day generalizing st with
  | nil => exact FieldsEq.refl _
  | cons s rest ih =>
    rw [List.foldl_cons]
    exact (ih _).trans (fields_run_shift year month people_per_shift day_num st s)

theorem fields_run_days (year month people_per_shift : Nat) (shifts_per_day : List String)
    (days : List Nat) (employees : List Employee) :
    FieldsEq (run_days year month people_per_shift shifts_per_day days employees).2 employees := by
  unfold run_days
  suffices h : ∀ (ds : List Nat) (st : Schedule × List Employee),
      FieldsEq (ds.foldl (run_day year month people_per_shift shifts_per_day) st).2 st.2 from
    h days ([], employees)
  intro ds
  induction ds with
  | nil => exact fun st => FieldsEq.refl _
  | cons d rest ih =>
    intro st
    rw [List.foldl_cons]
    exact (ih _).trans (fields_run_day year month people_per_shift shifts_per_day st d)

/-! ### The generic lifting lemma: every entry of the final schedule is the
output of `process_slot` on a reachable (fields-preserving) roster state. -/

theorem entries_sound (year month people_per_shift : Nat) (shifts_per_day : List String)
    (days : List Nat) (employees : List Employee)
    (Q : Nat → String → List String → Prop)
    (hQ : ∀ r, FieldsEq r employees → ∀ d s,
      Q d s (process_slot year month people_per_shift r d s).1) :
    ∀ d s v,
      sched_get (run_days year month people_per_shift shifts_per_day days employees).1 d s
        = some v → Q d s v := by
  unfold run_days
  suffices h : ∀ (ds : List Nat) (st : Schedule × List Employee),
      FieldsEq st.2 employees →
      (∀ d s v, sched_get st.1 d s = some v → Q d s v) →
      (∀ d s v,
        sched_get (ds.foldl (run_day year month people_per_shift shifts_per_day) st).1 d s
          = some v → Q d s v) by
    exact h days ([], employees) (FieldsEq.refl _) (by intro d s v hv; simp [sched_get, dlookup] at hv)
  intro ds
  induction ds with
  | nil => intro st _ hsch; exact hsch
  | cons d₀ rest ih =>
    intro st hfe hsch
    rw [List.foldl_cons]
    apply ih
    · exact (fields_run_day year month people_per_shift shifts_per_day st d₀).trans hfe
    · -- one day: fold over the shifts
      unfold run_day
      suffices h : ∀ (ss : List String) (st' : Schedule × List Employee),
          FieldsEq st'.2 employees →
          (∀ d s v, sched_get st'.1 d s = some v → Q d s v) →
          (∀ d s v,
            sched_get (ss.foldl (run_shift year month people_per_shift d₀) st').1 d s
              = some v → Q d s v) from h shifts_per_day st hfe hsch
      intro ss
      induction ss with
      | nil => intro st' _ hsch'; exact hsch'
      | cons s₀ ssrest ihs =>
        intro st' hfe' hsch'
        rw [List.foldl_cons]
        apply ihs
        · exact (fields_run_shift year month people_per_shift d₀ st' s₀).trans hfe'
        · intro d s v hv
          unfold run_shift at hv
          rw [sched_get_sched_set] at hv
          by_cases hds : d = d₀ ∧ s = s₀
          · rw [if_pos hds] at hv
            obtain ⟨hd, hs⟩ := hds
            subst hd; subst hs
            cases hv
            exact hQ st'.2 hfe' d s
          · rw [if_neg hds] at hv
            exact hsch' d s v hv

/-! ### Per-slot selection lemmas -/

theorem not_mem_of_contains_false {α : Type} [BEq α] [LawfulBEq α] {l : List α} {a : α}
    (h : l.contains a = false) : a ∉ l := by
  intro hmem
  have h2 : l.contains a = true := List.elem_eq_true_of_mem hmem
  rw [h] at h2
  cases h2

theorem contains_true_of_mem {α : Type} [BEq α] [LawfulBEq α] {l : List α} {a : α}
    (h : a ∈ l) : l.contains a = true :=
  List.elem_eq_true_of_mem h

theorem mem_select_of_mandatory (year month people_per_shift : Nat) (employees : List Employee)
    (day_num : Nat) (shift : String)
    (h : (mandatory_for employees (year, month, day_num) shift).length ≤ people_per_shift) :
    ∀ i ∈ mandatory_for employees (year, month, day_num) shift,
      i ∈ select_for_slot year month people_per_shift employees day_num shift := by
  intro i hi
  simp only [select_for_slot]
  by_cases hcase :
      people_per_shift ≤ (mandatory_for employees (year, month, day_num) shift).length
  · rw [if_pos hcase]
    have hlen : (sort_by_shifts employees
        (mandatory_for employees (year, month, day_num) shift)).length ≤ people_per_shift := by
      unfold sort_by_shifts
      rw [List.length_insertionSort]
      omega
    rw [List.take_of_length_le hlen]
    unfold sort_by_shifts
    exact (List.mem_insertionSort _).mpr hi
  · rw [if_neg hcase]
    rw [if_pos (by omega)]
    exact List.mem_append_left _ hi

/-- Every selected position is either mandatory for the slot or passed the
availability-and-free-day filter of the fill path. -/
theorem mem_select_cases (year month people_per_shift : Nat) (employees : List Employee)
    (day_num : Nat) (shift : String) :
    ∀ i ∈ select_for_slot year month people_per_shift employees day_num shift,
      i ∈ mandatory_for employees (year, month, day_num) shift ∨
      (i < employees.length ∧
       (getE employees i).is_available (year, month, day_num) shift = true ∧
       ¬ day_num ∈ assigned_days (getE employees i)) := by
  intro i hi
  simp only [select_for_slot] at hi
  by_cases hcase :
      people_per_shift ≤ (mandatory_for employees (year, month, day_num) shift).length
  · rw [if_pos hcase] at hi
    exact Or.inl ((List.mem_insertionSort _).mp (List.mem_of_mem_take hi))
  · rw [if_neg hcase] at hi
    rw [if_pos (by omega)] at hi
    rcases List.mem_append.mp hi with h | h
    · exact Or.inl h
    · have h' := (List.mem_insertionSort _).mp (List.mem_of_mem_take h)
      have h'' := List.mem_filter.mp h'
      refine Or.inr ⟨List.mem_range.mp h''.1, ?_, ?_⟩
      · have := h''.2
        simp only [Bool.and_eq_true] at this
        exact this.1.1
      · have := h''.2
        simp only [Bool.and_eq_true, Bool.not_eq_true'] at this
        exact not_mem_of_contains_false this.1.2

/-- Every selected position is a valid roster position. -/
theorem mem_select_lt (year month people_per_shift : Nat) (employees : List Employee)
    (day_num : Nat) (shift : String) :
    ∀ i ∈ select_for_slot year month people_per_shift employees day_num shift,
      i < employees.length := by
  intro i hi
  rcases mem_select_cases year month people_per_shift employees day_num shift i hi with h | h
  · exact List.mem_range.mp (List.mem_of_mem_filter h)
  · exact h.1

theorem name_mem_process_slot (year month people_per_shift : Nat) (employees : List Employee)
    (day_num : Nat) (shift : String) (i : Nat)
    (hi : i ∈ select_for_slot year month people_per_shift employees day_num shift) :
    (getE employees i).name ∈
      (process_slot year month people_per_shift employees day_num shift).1 := by
  simp only [process_slot]
  rw [if_neg (fun he => by rw [he] at hi; cases hi)]
  exact List.mem_map_of_mem _ hi

/-- Anything in a non-sentinel slot value is the name of a selected position. -/
theorem mem_process_slot_name (year month people_per_shift : Nat) (employees : List Employee)
    (day_num : Nat) (shift : String) (x : String)
    (hx : x ∈ (process_slot year month people_per_shift employees day_num shift).1) :
    x = Sentinel ∨
    ∃ i ∈ select_for_slot year month people_per_shift employees day_num shift,
      (getE employees i).name = x := by
  simp only [process_slot] at hx
  by_cases hsel : select_for_slot year month people_per_shift employees day_num shift = []
  · rw [if_pos hsel] at hx
    simp only [List.mem_singleton] at hx
    exact Or.inl hx
  · rw [if_neg hsel] at hx
    obtain ⟨i, hi, hname⟩ := List.mem_map.mp hx
    exact Or.inr ⟨i, hi, hname⟩

/-- Positions with distinct names: name equality implies position equality. -/
theorem name_getE_inj (employees : List Employee)
    (hnames : (employees.map Employee.name).Nodup)
    {i j : Nat} (hi : i < employees.length) (hj : j < employees.length)
    (h : (getE employees i).name = (getE employees j).name) : i = j := by
  have hmap : ∀ k (hk : k < employees.length),
      (getE employees k).name = (employees.map Employee.name).get ⟨k, by simpa using hk⟩ := by
    intro k hk
    unfold getE
    rw [List.getD_eq_getElem _ _ hk]
    simp
  rw [hmap i hi, hmap j hj] at h
  have := (List.nodup_iff_injective_get.mp hnames) h
  simpa using congrArg Fin.val this

theorem getE_mem (employees : List Employee) {i : Nat} (hi : i < employees.length) :
    getE employees i ∈ employees := by
  unfold getE
  rw [List.getD_eq_getElem _ _ hi]
  exact List.getElem_mem _

/-- Destructor for a successful `create_schedule` call. -/
theorem create_schedule_some {employees : List Employee} {shifts_per_day : List String}
    {people_per_shift month year : Nat} {week : Option Nat} {sch : Schedule}
    {rfin : List Employee}
    (h : create_schedule employees shifts_per_day people_per_shift month year week
        = some (sch, rfin)) :
    ∃ days, days_to_schedule year month week = some days ∧
      run_days year month people_per_shift shifts_per_day days employees = (sch, rfin) := by
  unfold create_schedule at h
  cases hds : days_to_schedule year month week with
  | none => rw [hds] at h; cases h
  | some days =>
    rw [hds] at h
    refine ⟨days, rfl, ?_⟩
    simpa using h

/-! ### Claim theorems -/

/-- C2.  For every (day, shift) slot of the generated schedule whose
mandatory-employee count is at most the headcount, every employee mandatory for
that slot appears in the slot's Assignment.  No availability hypothesis is
required anywhere: the statement holds even when the same `(date, shift)` pair
is in the employee's unavailable set (mandatory takes precedence over
unavailability; the witness below exercises exactly that case). -/
theorem mandatory_honored_bounded (employees : List Employee) (shifts_per_day : List String)
    (people_per_shift month year : Nat) (week : Option Nat) (sch : Schedule)
    (rfin : List Employee)
    (hrun : create_schedule employees shifts_per_day people_per_shift month year week
        = some (sch, rfin))
    (d : Nat) (s : String) (v : List String)
    (hv : sched_get sch d s = some v)
    (hM : (mandatory_for employees (year, month, d) s).length ≤ people_per_shift) :
    ∀ i ∈ mandatory_for employees (year, month, d) s, (getE employees i).name ∈ v := by
  obtain ⟨days, hds, hrd⟩ := create_schedule_some hrun
  have hsch : (run_days year month people_per_shift shifts_per_day days employees).1 = sch := by
    rw [hrd]
  have := entries_sound year month people_per_shift shifts_per_day days employees
    (fun d s v => (mandatory_for employees (year, month, d) s).length ≤ people_per_shift →
      ∀ i ∈ mandatory_for employees (year, month, d) s, (getE employees i).name ∈ v)
    (by
      intro r hfe d' s' hlen i hi
      rw [← mandatory_for_congr hfe (year, month, d') s'] at hi hlen
      have hsel := mem_select_of_mandatory year month people_per_shift r d' s' hlen i hi
      have := name_mem_process_slot year month people_per_shift r d' s' i hsel
      rwa [hfe.name_getE i] at this)
    d s v (by rw [hsch]; exact hv)
  exact this hM

/-- C3.  An employee whose `unavailable` set contains the exact `(date, shift)`
pair of a slot, and who is not mandatory for that slot, never appears in that
slot's Assignment (roster names distinct, and no roster name equals the
sentinel string). -/
theorem unavailability_respected (employees : List Employee) (shifts_per_day : List String)
    (people_per_shift month year : Nat) (week : Option Nat) (sch : Schedule)
    (rfin : List Employee)
    (hrun : create_schedule employees shifts_per_day people_per_shift month year week
        = some (sch, rfin))
    (hnames : (employees.map Employee.name).Nodup)
    (hsent : ∀ e ∈ employees, e.name ≠ Sentinel)
    (d : Nat) (s : String) (v : List String)
    (hv : sched_get sch d s = some v)
    (i : Nat) (hi : i < employees.length)
    (hunav : (((year, month, d) : Date), s) ∈ (getE employees i).unavailable_dates)
    (hmand : (((year, month, d) : Date), s) ∉ (getE employees i).mandatory_dates) :
    (getE employees i).name ∉ v := by
  obtain ⟨days, hds, hrd⟩ := create_schedule_some hrun
  have hsch : (run_days year month people_per_shift shifts_per_day days employees).1 = sch := by
    rw [hrd]
  have := entries_sound year month people_per_shift shifts_per_day days employees
    (fun d s v =>
      (((year, month, d) : Date), s) ∈ (getE employees i).unavailable_dates →
      (((year, month, d) : Date), s) ∉ (getE employees i).mandatory_dates →
      (getE employees i).name ∉ v)
    (by
      intro r hfe d' s' hu hm hmem
      rcases mem_process_slot_name year month people_per_shift r d' s' _ hmem with hx | hx
      · exact hsent (getE employees i) (getE_mem employees hi) hx
      · obtain ⟨j, hj, hname⟩ := hx
        have hjlt : j < r.length := mem_select_lt year month people_per_shift r d' s' j hj
        have hjlt' : j < employees.length := by rwa [hfe.length_eq] at hjlt
        have hname' : (getE employees j).name = (getE employees i).name := by
          rw [← hfe.name_getE j]; exact hname
        have hij : j = i := name_getE_inj employees hnames hjlt' hi hname'
        subst hij
        rcases mem_select_cases year month people_per_shift r d' s' j hj with hcase | hcase
        · -- j mandatory for the slot in state r: contradicts hm via field equality
          have : (getE r j).must_work (year, month, d') s' = true :=
            (List.mem_filter.mp hcase).2
          unfold Employee.must_work at this
          rw [hfe.mandatory_getE j] at this
          exact hm (by simpa using this)
        · -- j passed the availability check: contradicts hu via field equality
          have hav := hcase.2.1
          unfold Employee.is_available at hav
          rw [hfe.unavailable_getE j] at hav
          rw [if_pos hu] at hav
          cases hav)
    d s v (by rw [hsch]; exact hv)
  exact this hunav hmand

/-- C4.  A slot with zero eligible employees — no mandatory employee, and every
roster member either unavailable for this exact date and shift or already
holding a shift on this day — yields exactly the sentinel Assignment
`["No Available Employee"]` and leaves the whole roster state (every
`assigned_shifts` list, hence every fairness counter) untouched.  The engine is
modelled by a total function, so no exception is possible on this path. -/
theorem sentinel_on_empty_slot (year month people_per_shift : Nat) (employees : List Employee)
    (day_num : Nat) (shift : String)
    (hM : mandatory_for employees (year, month, day_num) shift = [])
    (helig : ∀ i, i < employees.length →
      (getE employees i).is_available (year, month, day_num) shift = false ∨
      day_num ∈ assigned_days (getE employees i)) :
    process_slot year month people_per_shift employees day_num shift
      = ([Sentinel], employees) := by
  have hsel : select_for_slot year month people_per_shift employees day_num shift = [] := by
    simp only [select_for_slot]
    by_cases hcase :
        people_per_shift ≤ (mandatory_for employees (year, month, day_num) shift).length
    · rw [if_pos hcase]
      rw [hM] at hcase ⊢
      simp only [List.length_nil, Nat.le_zero] at hcase
      simp [sort_by_shifts, hcase]
    · rw [if_neg hcase]
      rw [if_pos (by rw [hM] at hcase ⊢; simp at hcase ⊢; omega)]
      rw [hM]
      have hfil : (List.range employees.length).filter (fun i =>
          (getE employees i).is_available (year, month, day_num) shift &&
          !((assigned_days (getE employees i)).contains day_num) &&
          !(([] : List Nat).contains i)) = [] := by
        rw [List.filter_eq_nil_iff]
        intro i hi
        rcases helig i (List.mem_range.mp hi) with h | h
        · simp [h]
        · have hc : (assigned_days (getE employees i)).contains day_num = true :=
            contains_true_of_mem h
          simp only [hc, Bool.not_true, Bool.and_false, Bool.false_and, Bool.and_eq_true]
          intro hcon
          simp at hcon
      rw [hfil]
      simp [sort_by_shifts]
  simp only [process_slot]
  rw [hsel]
  simp

/-- C6.  A week index with no corresponding row of the weekday-aligned month
grid makes the whole call fail (the Python `IndexError`, the spec's
`InvalidPeriod`): no partial schedule is produced. -/
theorem invalid_week_fails (employees : List Employee) (shifts_per_day : List String)
    (people_per_shift month year w : Nat)
    (hw : (monthcalendar year month).length ≤ w) :
    create_schedule employees shifts_per_day people_per_shift month year (some w) = none := by
  have hds : days_to_schedule year month (some w) = none := by
    simp only [days_to_schedule]
    rw [dif_neg (by omega)]
  unfold create_schedule
  rw [hds]
  rfl

/-! ### Shape of the produced schedule: day keys and inner shift keys -/

theorem dlookup_isSome_iff {κ α : Type} [DecidableEq κ] (l : List (κ × α)) (k : κ) :
    (dlookup l k).isSome ↔ k ∈ l.map Prod.fst := by
  induction l with
  | nil => simp [dlookup]
  | cons p rest ih =>
    obtain ⟨k₀, v₀⟩ := p
    by_cases h : k₀ = k
    · subst h; simp [dlookup]
    · have h' : ¬ k = k₀ := fun he => h he.symm
      simp [dlookup, h, h', ih]

theorem dlookup_sched_set_isSome (sch : Schedule) (d₀ : Nat) (s : String)
    (v : List String) (k : Nat) :
    (dlookup (sched_set sch d₀ s v) k).isSome ↔ ((dlookup sch k).isSome ∨ k = d₀) := by
  unfold sched_set
  by_cases h : k = d₀
  · subst h; rw [dlookup_dset_self]; simp
  · rw [dlookup_dset_ne _ _ _ _ h]; simp [h]

/-- Presence of a `(d, s)` entry after the shift loop of one day. -/
theorem slot_presence_shifts (year month people_per_shift d₀ : Nat) (ss : List String)
    (st : Schedule × List Employee) (d : Nat) (s : String) :
    (sched_get (ss.foldl (run_shift year month people_per_shift d₀) st).1 d s).isSome ↔
    ((sched_get st.1 d s).isSome ∨ (d = d₀ ∧ s ∈ ss)) := by
  induction ss generalizing st with
  | nil => simp
  | cons s₁ rest ih =>
    rw [List.foldl_cons, ih]
    have hstep : (sched_get (run_shift year month people_per_shift d₀ st s₁).1 d s).isSome ↔
        ((sched_get st.1 d s).isSome ∨ (d = d₀ ∧ s = s₁)) := by
      simp only [run_shift]
      rw [sched_get_sched_set]
      by_cases h : d = d₀ ∧ s = s₁
      · simp [h]
      · simp [h]
    rw [hstep]
    simp only [List.mem_cons]
    tauto

/-- Presence of a `(d, s)` entry after the whole double loop. -/
theorem slot_presence_days (year month people_per_shift : Nat)
    (shifts_per_day : List String) (ds : List Nat) (st : Schedule × List Employee)
    (d : Nat) (s : String) :
    (sched_get (ds.foldl (run_day year month people_per_shift shifts_per_day) st).1 d s).isSome ↔
    ((sched_get st.1 d s).isSome ∨ (d ∈ ds ∧ s ∈ shifts_per_day)) := by
  induction ds generalizing st with
  | nil => simp
  | cons d₁ rest ih =>
    rw [List.foldl_cons, ih]
    have hstep := slot_presence_shifts year month people_per_shift d₁ shifts_per_day st d s
    unfold run_day
    rw [hstep]
    simp only [List.mem_cons]
    tauto

theorem slot_presence (year month people_per_shift : Nat) (shifts_per_day : List String)
    (days : List Nat) (employees : List Employee) (d : Nat) (s : String) :
    (sched_get (run_days year month people_per_shift shifts_per_day days employees).1 d s).isSome
      ↔ (d ∈ days ∧ s ∈ shifts_per_day) := by
  unfold run_days
  rw [slot_presence_days]
  simp [sched_get, dlookup]

/-- Presence of a day key after the shift loop of one day. -/
theorem day_presence_shifts (year month people_per_shift d₀ : Nat) (ss : List String)
    (st : Schedule × List Employee) (k : Nat) :
    (dlookup (ss.foldl (run_shift year month people_per_shift d₀) st).1 k).isSome ↔
    ((dlookup st.1 k).isSome ∨ (ss ≠ [] ∧ k = d₀)) := by
  induction ss generalizing st with
  | nil => simp
  | cons s₁ rest ih =>
    rw [List.foldl_cons, ih]
    have hstep : (dlookup (run_shift year month people_per_shift d₀ st s₁).1 k).isSome ↔
        ((dlookup st.1 k).isSome ∨ k = d₀) := by
      simp only [run_shift]
      exact dlookup_sched_set_isSome st.1 d₀ s₁ _ k
    rw [hstep]
    by_cases hrest : rest = [] <;> simp [hrest]

/-- Presence of a day key after the whole double loop. -/
theorem day_presence_days (year month people_per_shift : Nat)
    (shifts_per_day : List String) (ds : List Nat) (st : Schedule × List Employee) (k : Nat) :
    (dlookup (ds.foldl (run_day year month people_per_shift shifts_per_day) st).1 k).isSome ↔
    ((dlookup st.1 k).isSome ∨ (shifts_per_day ≠ [] ∧ k ∈ ds)) := by
  induction ds generalizing st with
  | nil => simp
  | cons d₁ rest ih =>
    rw [List.foldl_cons, ih]
    have hstep := day_presence_shifts year month people_per_shift d₁ shifts_per_day st k
    unfold run_day
    rw [hstep]
    simp only [List.mem_cons]
    tauto

theorem day_keys_run_days (year month people_per_shift : Nat)
    (shifts_per_day : List String) (days : List Nat) (employees : List Employee) (k : Nat) :
    k ∈ (run_days year month people_per_shift shifts_per_day days employees).1.map Prod.fst
      ↔ (shifts_per_day ≠ [] ∧ k ∈ days) := by
  rw [← dlookup_isSome_iff]
  unfold run_days
  rw [day_presence_days]
  simp [dlookup]

/-- C7.  With at least one declared shift: under a valid week index `w` the
schedule's day keys are exactly the non-placeholder (non-zero) days of grid row
`w` of the weekday-aligned month grid, and with no week index they are exactly
`1 .. days-in-month`. -/
theorem week_filter_day_keys (employees : List Employee) (shifts_per_day : List String)
    (people_per_shift month year : Nat) (week : Option Nat) (sch : Schedule)
    (rfin : List Employee)
    (hrun : create_schedule employees shifts_per_day people_per_shift month year week
        = some (sch, rfin))
    (hs : shifts_per_day ≠ []) :
    (∀ w, week = some w →
      ∃ hw : w < (monthcalendar year month).length,
        ∀ d, d ∈ sch.map Prod.fst ↔
          d ∈ ((monthcalendar year month).get ⟨w, hw⟩).filter (fun day => day != 0)) ∧
    (week = none →
      ∀ d, d ∈ sch.map Prod.fst ↔ 1 ≤ d ∧ d ≤ days_in_month year month) := by
  obtain ⟨days, hds, hrd⟩ := create_schedule_some hrun
  have hsch : (run_days year month people_per_shift shifts_per_day days employees).1 = sch := by
    rw [hrd]
  have hkeys : ∀ d, d ∈ sch.map Prod.fst ↔ d ∈ days := by
    intro d
    rw [← hsch, day_keys_run_days]
    exact ⟨fun h => h.2, fun h => ⟨hs, h⟩⟩
  constructor
  · intro w hw
    subst hw
    simp only [days_to_schedule] at hds
    by_cases hlt : w < (monthcalendar year month).length
    · rw [dif_pos hlt] at hds
      refine ⟨hlt, fun d => ?_⟩
      rw [hkeys d]
      cases hds
      rfl
    · rw [dif_neg hlt] at hds
      cases hds
  · intro hw
    subst hw
    simp only [days_to_schedule] at hds
    cases hds
    intro d
    rw [hkeys d, List.mem_range']
    constructor
    · rintro ⟨i, hi, rfl⟩; omega
    · intro h
      exact ⟨d - 1, by omega, by omega⟩

/-- C10.  Every day present in the schedule maps to an inner dictionary whose
keys are exactly the declared shift names, each bound either to the sentinel or
to a non-empty list of roster employee names. -/
theorem schedule_day_shape (employees : List Employee) (shifts_per_day : List String)
    (people_per_shift month year : Nat) (week : Option Nat) (sch : Schedule)
    (rfin : List Employee)
    (hrun : create_schedule employees shifts_per_day people_per_shift month year week
        = some (sch, rfin)) :
    ∀ d m, dlookup sch d = some m →
      (∀ s, s ∈ m.map Prod.fst ↔ s ∈ shifts_per_day) ∧
      (∀ s v, dlookup m s = some v →
        v ≠ [] ∧ (v = [Sentinel] ∨ ∀ x ∈ v, x ∈ employees.map Employee.name)) := by
  obtain ⟨days, hds, hrd⟩ := create_schedule_some hrun
  have hsch : (run_days year month people_per_shift shifts_per_day days employees).1 = sch := by
    rw [hrd]
  intro d m hm
  have hd_in : shifts_per_day ≠ [] ∧ d ∈ days := by
    have : d ∈ sch.map Prod.fst := (dlookup_isSome_iff sch d).mp (by rw [hm]; rfl)
    rw [← hsch] at this
    exact (day_keys_run_days year month people_per_shift shifts_per_day days employees d).mp this
  have hget : ∀ s, sched_get sch d s = dlookup m s := by
    intro s
    unfold sched_get
    rw [hm]
    rfl
  constructor
  · intro s
    rw [← dlookup_isSome_iff, ← hget s, ← hsch, slot_presence]
    exact ⟨fun h => h.2, fun h => ⟨hd_in.2, h⟩⟩
  · intro s v hv
    have hv' : sched_get sch d s = some v := by rw [hget s]; exact hv
    refine entries_sound year month people_per_shift shifts_per_day days employees
      (fun d s v => v ≠ [] ∧ (v = [Sentinel] ∨ ∀ x ∈ v, x ∈ employees.map Employee.name))
      ?_ d s v (by rw [hsch]; exact hv')
    intro r hfe d' s'
    simp only [process_slot]
    by_cases hsel : select_for_slot year month people_per_shift r d' s' = []
    · rw [if_pos hsel]
      exact ⟨by simp [Sentinel], Or.inl rfl⟩
    · rw [if_neg hsel]
      refine ⟨by simpa using hsel, Or.inr ?_⟩
      intro x hx
      obtain ⟨i, hi, hname⟩ := List.mem_map.mp hx
      have hilt : i < r.length := mem_select_lt year month people_per_shift r d' s' i hi
      have hilt' : i < employees.length := by rwa [hfe.length_eq] at hilt
      rw [← hname, hfe.name_getE i]
      exact List.mem_map_of_mem _ (getE_mem employees hilt')

/-! ### The overflow branch: stable-sort selection (C1) -/

theorem sort_by_shifts_perm (employees : List Employee) (l : List Nat) :
    sort_by_shifts employees l ~ l :=
  List.perm_insertionSort _ l

theorem sort_by_shifts_sorted (employees : List Employee) (l : List Nat) :
    (sort_by_shifts employees l).Sorted (shifts_le employees) :=
  List.sorted_insertionSort _ l

theorem sort_by_shifts_pair (employees : List Employee) {l : List Nat} {i j : Nat}
    (hij : shifts_le employees i j) (h : [i, j] <+ l) :
    [i, j] <+ sort_by_shifts employees l :=
  List.pair_sublist_insertionSort hij h

/-- In a `<`-sorted list, two members in order form a sublist pair. -/
theorem pair_sublist_of_pairwise_lt {l : List Nat} (hl : l.Pairwise (· < ·)) {i j : Nat}
    (hi : i ∈ l) (hj : j ∈ l) (hij : i < j) : [i, j] <+ l := by
  induction l with
  | nil => cases hi
  | cons a t ih =>
    rcases List.mem_cons.mp hi with rfl | hi'
    · rcases List.mem_cons.mp hj with rfl | hj'
      · omega
      · exact List.Sublist.cons₂ i (List.singleton_sublist.mpr hj')
    · have hj' : j ∈ t := by
        rcases List.mem_cons.mp hj with rfl | hj'
        · have := (List.pairwise_cons.mp hl).1 i hi'
          omega
        · exact hj'
      exact List.Sublist.cons a (ih (List.pairwise_cons.mp hl).2 hi' hj')

theorem mandatory_for_nodup (employees : List Employee) (date_obj : Date) (shift : String) :
    (mandatory_for employees date_obj shift).Nodup :=
  List.Nodup.filter _ (List.nodup_range _)

theorem mandatory_for_pairwise_lt (employees : List Employee) (date_obj : Date)
    (shift : String) : (mandatory_for employees date_obj shift).Pairwise (· < ·) :=
  List.Pairwise.filter _ (List.pairwise_lt_range _)

/-- The overflow branch (lines 76-79): with at least `people_per_shift` mandatory
employees, the selection has exactly `people_per_shift` distinct positions, all
mandatory, and is minimal for the order "fewer assigned shifts first, ties by
roster position" (the stable sort's tie-break). -/
theorem select_overflow_spec (year month people_per_shift : Nat) (r : List Employee)
    (day_num : Nat) (shift : String)
    (hover : people_per_shift ≤ (mandatory_for r (year, month, day_num) shift).length) :
    (select_for_slot year month people_per_shift r day_num shift).length = people_per_shift ∧
    (select_for_slot year month people_per_shift r day_num shift).Nodup ∧
    (∀ i ∈ select_for_slot year month people_per_shift r day_num shift,
      i ∈ mandatory_for r (year, month, day_num) shift) ∧
    (∀ i ∈ select_for_slot year month people_per_shift r day_num shift,
     ∀ j ∈ mandatory_for r (year, month, day_num) shift,
       j ∉ select_for_slot year month people_per_shift r day_num shift →
       (getE r i).assigned_shifts.length < (getE r j).assigned_shifts.length ∨
       ((getE r i).assigned_shifts.length = (getE r j).assigned_shifts.length ∧ i < j)) := by
  have hbranch : select_for_slot year month people_per_shift r day_num shift
      = (sort_by_shifts r (mandatory_for r (year, month, day_num) shift)).take
          people_per_shift := by
    simp only [select_for_slot]
    rw [if_pos hover]
  have hperm := sort_by_shifts_perm r (mandatory_for r (year, month, day_num) shift)
  have hMnd := mandatory_for_nodup r (year, month, day_num) shift
  have hMlt := mandatory_for_pairwise_lt r (year, month, day_num) shift
  have hsnd : (sort_by_shifts r (mandatory_for r (year, month, day_num) shift)).Nodup :=
    hperm.symm.nodup hMnd
  have hslen : (sort_by_shifts r (mandatory_for r (year, month, day_num) shift)).length
      = (mandatory_for r (year, month, day_num) shift).length := hperm.length_eq
  have hsorted := sort_by_shifts_sorted r (mandatory_for r (year, month, day_num) shift)
  rw [hbranch]
  refine ⟨?_, ?_, ?_, ?_⟩
  · rw [List.length_take, hslen]
    omega
  · exact List.Nodup.sublist (List.take_sublist _ _) hsnd
  · intro i hi
    exact hperm.mem_iff.mp (List.mem_of_mem_take hi)
  · intro i hi j hj hjn
    have hjs : j ∈ (sort_by_shifts r (mandatory_for r (year, month, day_num) shift)).drop
        people_per_shift := by
      have hjs' : j ∈ sort_by_shifts r (mandatory_for r (year, month, day_num) shift) :=
        hperm.mem_iff.mpr hj
      rcases List.mem_append.mp
          (by rw [List.take_append_drop]; exact hjs' :
            j ∈ (sort_by_shifts r (mandatory_for r (year, month, day_num) shift)).take
                  people_per_shift ++
                (sort_by_shifts r (mandatory_for r (year, month, day_num) shift)).drop
                  people_per_shift) with h | h
      · exact absurd h hjn
      · exact h
    have hle : shifts_le r i j := hsorted.rel_of_mem_take_of_mem_drop hi hjs
    by_cases heq : (getE r i).assigned_shifts.length = (getE r j).assigned_shifts.length
    · refine Or.inr ⟨heq, ?_⟩
      by_contra hnot
      have hne : i ≠ j := fun he => hjn (he ▸ hi)
      have hji : j < i := by omega
      have him : i ∈ mandatory_for r (year, month, day_num) shift :=
        hperm.mem_iff.mp (List.mem_of_mem_take hi)
      have hpair : [j, i] <+ mandatory_for r (year, month, day_num) shift :=
        pair_sublist_of_pairwise_lt hMlt hj him hji
      have hstab : [j, i] <+ sort_by_shifts r (mandatory_for r (year, month, day_num) shift) :=
        sort_by_shifts_pair r (by unfold shifts_le; omega) hpair
      rw [← List.take_append_drop people_per_shift
        (sort_by_shifts r (mandatory_for r (year, month, day_num) shift))] at hstab
      have hdisj : List.Disjoint
          ((sort_by_shifts r (mandatory_for r (year, month, day_num) shift)).take
            people_per_shift)
          ((sort_by_shifts r (mandatory_for r (year, month, day_num) shift)).drop
            people_per_shift) := by
        apply List.disjoint_of_nodup_append
        rw [List.take_append_drop]
        exact hsnd
      obtain ⟨l₁, l₂, hl, h1, h2⟩ := List.sublist_append_iff.mp hstab
      rcases l₁ with _ | ⟨x, _ | ⟨y, l₁'⟩⟩
      · -- l₂ = [j, i] entirely inside the drop part, but i is in the take part
        simp only [List.nil_append] at hl
        subst hl
        exact hdisj hi (h2.subset (by simp))
      · -- l₁ = [j], l₂ = [i]: j in both halves
        simp only [List.cons_append, List.nil_append, List.cons.injEq] at hl
        obtain ⟨rfl, hl2⟩ := hl
        subst hl2
        exact hdisj (h1.subset (by simp)) hjs
      · -- l₁ = [j, i] entirely inside the take part, but j is in the drop part
        simp only [List.cons_append, List.cons.injEq] at hl
        obtain ⟨rfl, rfl, hl2⟩ := hl
        have hl1 : l₁' = [] := by
          cases l₁' with
          | nil => rfl
          | cons z t => simp at hl2
        subst hl1
        exact hdisj (h1.subset (by simp)) hjs
    · unfold shifts_le at hle
      exact Or.inl (by omega)

/-! ### The scheduled days are distinct (used for C1 and C9) -/

theorem chunk7_go_sublist (fuel : Nat) :
    ∀ (l c : List Nat), c ∈ chunk7_go fuel l → c <+ l := by
  induction fuel with
  | zero =>
    intro l c hc
    cases l <;> simp [chunk7_go] at hc
  | succ n ih =>
    intro l c hc
    cases l with
    | nil => simp [chunk7_go] at hc
    | cons a rest =>
      simp only [chunk7_go, List.mem_cons] at hc
      rcases hc with rfl | hc'
      · exact List.take_sublist _ _
      · exact (ih _ _ hc').trans (List.drop_sublist _ _)

/-- The non-placeholder entries of the flat month grid are exactly the month's
days, in order. -/
theorem flat_grid_filter (year month : Nat) :
    (List.replicate (weekday year month 1) 0 ++
      List.range' 1 (days_in_month year month) ++
      List.replicate ((7 - (weekday year month 1 + days_in_month year month) % 7) % 7) 0).filter
        (fun day => day != 0) = List.range' 1 (days_in_month year month) := by
  rw [List.filter_append, List.filter_append]
  rw [List.filter_replicate_of_neg (by simp), List.filter_replicate_of_neg (by simp)]
  rw [List.filter_eq_self.mpr]
  · simp
  · intro x hx
    have := List.mem_range'_1.mp hx
    simp only [bne_iff_ne, ne_eq]
    omega

/-- The scheduled days are pairwise distinct (both with and without a week
filter). -/
theorem days_to_schedule_nodup (year month : Nat) (week : Option Nat) (days : List Nat)
    (h : days_to_schedule year month week = some days) : days.Nodup := by
  cases week with
  | none =>
    simp only [days_to_schedule] at h
    cases h
    exact List.nodup_range' 1 (days_in_month year month)
  | some w =>
    simp only [days_to_schedule] at h
    by_cases hw : w < (monthcalendar year month).length
    · rw [dif_pos hw] at h
      cases h
      have hrow : (monthcalendar year month).get ⟨w, hw⟩ ∈ monthcalendar year month :=
        List.get_mem _ _ _
      have hrow2 : (monthcalendar year month).get ⟨w, hw⟩ ∈ chunk7_go
          (List.replicate (weekday year month 1) 0 ++
            List.range' 1 (days_in_month year month) ++
            List.replicate
              ((7 - (weekday year month 1 + days_in_month year month) % 7) % 7) 0).length
          (List.replicate (weekday year month 1) 0 ++
            List.range' 1 (days_in_month year month) ++
            List.replicate
              ((7 - (weekday year month 1 + days_in_month year month) % 7) % 7) 0) := hrow
      have hsub := chunk7_go_sublist _ _ _ hrow2
      have hsubf := hsub.filter (fun day => day != 0)
      rw [flat_grid_filter] at hsubf
      exact List.Nodup.sublist hsubf (List.nodup_range' 1 (days_in_month year month))
    · rw [dif_neg hw] at h
      cases h

/-! The roster state at the moment a slot is processed.  The loop processes the
days in order and, within a day, the shifts in order; with distinct days and
distinct shift names the state just before slot `(d, s)` is the fold over the
days before `d` followed by the fold over the shifts before `s` on day `d`,
and the slot's final schedule entry is exactly the `process_slot` output on
that state (`sched_get_run_days_eq` below). -/

theorem takeWhile_ne_decomp {α : Type} [BEq α] [LawfulBEq α] {l : List α} {a : α}
    (ha : a ∈ l) :
    (l.takeWhile (fun x => x != a) ++ a :: (l.dropWhile (fun x => x != a)).tail = l) ∧
    a ∉ l.takeWhile (fun x => x != a) := by
  have hdw : l.dropWhile (fun x => x != a) ≠ [] := by
    intro hnil
    have := List.dropWhile_eq_nil_iff.mp hnil a ha
    simp at this
  have hhead : (l.dropWhile (fun x => x != a)).head hdw = a := by
    have := List.head_dropWhile_not (fun x => x != a) l hdw
    simpa using this
  have hcons : l.dropWhile (fun x => x != a)
      = a :: (l.dropWhile (fun x => x != a)).tail := by
    conv_lhs => rw [← List.head_cons_tail (l.dropWhile (fun x => x != a)) hdw]
    rw [hhead]
  constructor
  · rw [← hcons, List.takeWhile_append_dropWhile]
  · intro hmem
    have := List.mem_takeWhile_imp hmem
    simp at this

/-- Shifts other than `(d, s)` never touch the `(d, s)` entry. -/
theorem sched_get_foldl_shifts_preserve (year month people_per_shift d₀ : Nat)
    (d : Nat) (s : String) :
    ∀ (ss : List String) (st : Schedule × List Employee), (d ≠ d₀ ∨ s ∉ ss) →
      sched_get (ss.foldl (run_shift year month people_per_shift d₀) st).1 d s
        = sched_get st.1 d s := by
  intro ss
  induction ss with
  | nil => intro st _; rfl
  | cons s₁ rest ih =>
    intro st hcond
    have hcond' : d ≠ d₀ ∨ s ∉ rest := by
      rcases hcond with h | h
      · exact Or.inl h
      · exact Or.inr fun hm => h (List.mem_cons_of_mem _ hm)
    have hne : ¬(d = d₀ ∧ s = s₁) := by
      rintro ⟨rfl, rfl⟩
      rcases hcond with h | h
      · exact h rfl
      · exact h (List.mem_cons_self _ _)
    rw [List.foldl_cons, ih _ hcond']
    simp only [run_shift]
    rw [sched_get_sched_set, if_neg hne]

/-- Days other than `d` never touch the `(d, s)` entry. -/
theorem sched_get_foldl_days_preserve (year month people_per_shift : Nat)
    (shifts_per_day : List String) (d : Nat) (s : String) :
    ∀ (ds : List Nat) (st : Schedule × List Employee), d ∉ ds →
      sched_get (ds.foldl (run_day year month people_per_shift shifts_per_day) st).1 d s
        = sched_get st.1 d s := by
  intro ds
  induction ds with
  | nil => intro st _; rfl
  | cons d₁ rest ih =>
    intro st hd
    have hne : d ≠ d₁ := fun he => hd (he ▸ List.mem_cons_self _ _)
    rw [List.foldl_cons, ih _ (fun hm => hd (List.mem_cons_of_mem _ hm))]
    unfold run_day
    exact sched_get_foldl_shifts_preserve year month people_per_shift d₁ d s
      shifts_per_day st (Or.inl hne)

/-- The entry one `run_day` writes at shift `s` is the `process_slot` output on
the state reached after the shifts before `s`. -/
theorem sched_get_run_day_eq (year month people_per_shift : Nat)
    (shifts_per_day : List String) (d : Nat) (s : String)
    (hsnd : shifts_per_day.Nodup) (hs : s ∈ shifts_per_day)
    (st : Schedule × List Employee) :
    sched_get (run_day year month people_per_shift shifts_per_day st d).1 d s
      = some ((process_slot year month people_per_shift
          ((shifts_per_day.takeWhile (fun x => x != s)).foldl
            (run_shift year month people_per_shift d) st).2 d s).1) := by
  obtain ⟨hsdecomp, hstw⟩ := takeWhile_ne_decomp hs
  have hstl : s ∉ (shifts_per_day.dropWhile (fun x => x != s)).tail := by
    have h2 : (shifts_per_day.takeWhile (fun x => x != s) ++
        s :: (shifts_per_day.dropWhile (fun x => x != s)).tail).Nodup := by
      rw [hsdecomp]
      exact hsnd
    exact (List.nodup_cons.mp (List.Nodup.of_append_right h2)).1
  unfold run_day
  conv_lhs => rw [← hsdecomp]
  rw [List.foldl_append, List.foldl_cons]
  rw [sched_get_foldl_shifts_preserve year month people_per_shift d d s _ _ (Or.inr hstl)]
  simp only [run_shift]
  rw [sched_get_sched_set, if_pos ⟨rfl, rfl⟩]

/-- The roster state just before slot `(day_num, shift)` is processed, given
the scheduled days. -/
def roster_before_slot (year month people_per_shift : Nat)
    (shifts_per_day : List String) (days : List Nat) (employees : List Employee)
    (day_num : Nat) (shift : String) : List Employee :=
  ((shifts_per_day.takeWhile (fun x => x != shift)).foldl
    (run_shift year month people_per_shift day_num)
    ((days.takeWhile (fun x => x != day_num)).foldl
      (run_day year month people_per_shift shifts_per_day) ([], employees))).2

/-- The roster state just before slot `(day_num, shift)` of a `create_schedule`
call (argument order as in the source). -/
def roster_at_slot (employees : List Employee) (shifts_per_day : List String)
    (people_per_shift month year : Nat) (week : Option Nat)
    (day_num : Nat) (shift : String) : List Employee :=
  match days_to_schedule year month week with
  | none => employees
  | some days =>
    roster_before_slot year month people_per_shift shifts_per_day days employees
      day_num shift

/-- With distinct days and distinct shift names, the final schedule's `(d, s)`
entry is the `process_slot` output on the roster state just before that slot. -/
theorem sched_get_run_days_eq (year month people_per_shift : Nat)
    (shifts_per_day : List String) (days : List Nat) (employees : List Employee)
    (d : Nat) (s : String) (hdnd : days.Nodup) (hsnd : shifts_per_day.Nodup)
    (hd : d ∈ days) (hs : s ∈ shifts_per_day) :
    sched_get (run_days year month people_per_shift shifts_per_day days employees).1 d s
      = some ((process_slot year month people_per_shift
          (roster_before_slot year month people_per_shift shifts_per_day days employees
            d s) d s).1) := by
  obtain ⟨hdecomp, hdtw⟩ := takeWhile_ne_decomp hd
  have hdtl : d ∉ (days.dropWhile (fun x => x != d)).tail := by
    have h2 : (days.takeWhile (fun x => x != d) ++
        d :: (days.dropWhile (fun x => x != d)).tail).Nodup := by
      rw [hdecomp]
      exact hdnd
    exact (List.nodup_cons.mp (List.Nodup.of_append_right h2)).1
  unfold run_days
  conv_lhs => rw [← hdecomp]
  rw [List.foldl_append, List.foldl_cons]
  rw [sched_get_foldl_days_preserve year month people_per_shift shifts_per_day d s _ _ hdtl]
  rw [sched_get_run_day_eq year month people_per_shift shifts_per_day d s hsnd hs]
  rfl

theorem fields_roster_before (year month people_per_shift : Nat)
    (shifts_per_day : List String) (days : List Nat) (employees : List Employee)
    (day_num : Nat) (shift : String) :
    FieldsEq (roster_before_slot year month people_per_shift shifts_per_day days employees
      day_num shift) employees :=
  (fields_run_day year month people_per_shift
      (shifts_per_day.takeWhile (fun x => x != shift)) _ day_num).trans
    (fields_run_days year month people_per_shift shifts_per_day
      (days.takeWhile (fun x => x != day_num)) employees)

/-- C1.  For every slot of the generated schedule whose mandatory list `M` has
more than `people_per_shift` members (and a positive headcount and distinct
shift names, as the spec requires), the slot's Assignment consists of exactly
`people_per_shift` distinct mandatory employees — those minimal for "fewest
assigned shifts at the moment the slot is processed, ties broken by roster
position", where the moment's roster state is `roster_at_slot`, the actual
state of the run just before the slot (`sched_get_run_days_eq`) — and the name
of every other mandatory employee for the slot is absent from the Assignment
(roster names distinct). -/
theorem mandatory_overflow_truncation (employees : List Employee)
    (shifts_per_day : List String) (people_per_shift month year : Nat)
    (week : Option Nat) (sch : Schedule) (rfin : List Employee)
    (hrun : create_schedule employees shifts_per_day people_per_shift month year week
        = some (sch, rfin))
    (hnames : (employees.map Employee.name).Nodup)
    (hshifts : shifts_per_day.Nodup)
    (d : Nat) (s : String) (v : List String)
    (hv : sched_get sch d s = some v)
    (hN : 0 < people_per_shift)
    (hover : people_per_shift < (mandatory_for employees (year, month, d) s).length) :
    ∃ sel : List Nat,
      v = sel.map (fun i => (getE employees i).name) ∧
      sel.length = people_per_shift ∧
      sel.Nodup ∧
      (∀ i ∈ sel, i ∈ mandatory_for employees (year, month, d) s) ∧
      (∀ i ∈ sel, ∀ j ∈ mandatory_for employees (year, month, d) s, j ∉ sel →
        (getE (roster_at_slot employees shifts_per_day people_per_shift month year week
            d s) i).assigned_shifts.length
          < (getE (roster_at_slot employees shifts_per_day people_per_shift month year week
            d s) j).assigned_shifts.length ∨
        ((getE (roster_at_slot employees shifts_per_day people_per_shift month year week
            d s) i).assigned_shifts.length
          = (getE (roster_at_slot employees shifts_per_day people_per_shift month year week
            d s) j).assigned_shifts.length ∧ i < j)) ∧
      (∀ j ∈ mandatory_for employees (year, month, d) s, j ∉ sel →
        (getE employees j).name ∉ v) := by
  obtain ⟨days, hds, hrd⟩ := create_schedule_some hrun
  have hsch : (run_days year month people_per_shift shifts_per_day days employees).1 = sch := by
    rw [hrd]
  have hdnd := days_to_schedule_nodup year month week days hds
  have hpres : d ∈ days ∧ s ∈ shifts_per_day := by
    have hso : (sched_get (run_days year month people_per_shift shifts_per_day days
        employees).1 d s).isSome := by
      rw [hsch, hv]
      rfl
    exact (slot_presence year month people_per_shift shifts_per_day days employees d s).mp hso
  have hlook := sched_get_run_days_eq year month people_per_shift shifts_per_day days
    employees d s hdnd hshifts hpres.1 hpres.2
  rw [hsch, hv] at hlook
  have hveq0 : v = (process_slot year month people_per_shift
      (roster_before_slot year month people_per_shift shifts_per_day days employees d s)
      d s).1 := Option.some.inj hlook
  have hrat : roster_at_slot employees shifts_per_day people_per_shift month year week d s
      = roster_before_slot year month people_per_shift shifts_per_day days employees d s := by
    unfold roster_at_slot
    rw [hds]
  set r := roster_before_slot year month people_per_shift shifts_per_day days employees d s
    with hrdef
  have hfe : FieldsEq r employees :=
    fields_roster_before year month people_per_shift shifts_per_day days employees d s
  have hcongr := mandatory_for_congr hfe (year, month, d) s
  have hover' : people_per_shift ≤ (mandatory_for r (year, month, d) s).length := by
    rw [hcongr]
    omega
  obtain ⟨hlen, hnd, hmem, hmin⟩ :=
    select_overflow_spec year month people_per_shift r d s hover'
  have hne : select_for_slot year month people_per_shift r d s ≠ [] := by
    intro he
    rw [he] at hlen
    simp at hlen
    omega
  have hout : (process_slot year month people_per_shift r d s).1
      = (select_for_slot year month people_per_shift r d s).map
          (fun i => (getE r i).name) := by
    simp only [process_slot]
    rw [if_neg hne]
  have hname_eq : (fun i => (getE r i).name) = (fun i => (getE employees i).name) :=
    funext fun i => hfe.name_getE i
  refine ⟨select_for_slot year month people_per_shift r d s,
    by rw [hveq0, hout, hname_eq], hlen, hnd, ?_, ?_, ?_⟩
  · intro i hi
    rw [← hcongr]
    exact hmem i hi
  · intro i hi j hj hjn
    rw [hrat]
    rw [← hcongr] at hj
    exact hmin i hi j hj hjn
  · intro j hj hjn hmem'
    rw [hveq0, hout, hname_eq] at hmem'
    obtain ⟨i, hi, hini⟩ := List.mem_map.mp hmem'
    have hilt : i < employees.length := by
      have := mem_select_lt year month people_per_shift r d s i hi
      rwa [hfe.length_eq] at this
    have hjlt : j < employees.length := by
      have := List.mem_range.mp (List.mem_of_mem_filter hj)
      exact this
    have hij : i = j := name_getE_inj employees hnames hilt hjlt hini
    subst hij
    exact hjn hi

/-! ### Same-day double booking is only possible through mandatory slots (C8) -/

theorem getE_set_self (emps : List Employee) (k : Nat) (e' : Employee)
    (hk : k < emps.length) : getE (emps.set k e') k = e' := by
  unfold getE
  rw [List.getD_eq_getElem?_getD, List.getElem?_set_self (by simpa using hk)]
  rfl

theorem getE_set_ne (emps : List Employee) (k : Nat) (e' : Employee) (i : Nat)
    (h : i ≠ k) : getE (emps.set k e') i = getE emps i := by
  unfold getE
  rw [List.getD_eq_getElem?_getD, List.getD_eq_getElem?_getD,
    List.getElem?_set_ne (fun he => h he.symm)]

theorem record_assignments_cons (emps : List Employee) (k : Nat) (rest : List Nat)
    (day_num : Nat) (shift : String) :
    record_assignments emps (k :: rest) day_num shift
      = record_assignments
          (emps.set k { getE emps k with
            assigned_shifts := (getE emps k).assigned_shifts ++ [(day_num, shift)] })
          rest day_num shift := rfl

/-- `record_assignments` only appends to `assigned_shifts` lists. -/
theorem record_assignments_mono (emps : List Employee) (sel : List Nat)
    (day_num : Nat) (shift : String) (i : Nat) :
    ∃ t, (getE (record_assignments emps sel day_num shift) i).assigned_shifts
      = (getE emps i).assigned_shifts ++ t := by
  induction sel generalizing emps with
  | nil => exact ⟨[], (List.append_nil _).symm⟩
  | cons k rest ih =>
    rw [record_assignments_cons]
    by_cases hki : i = k
    · subst hki
      by_cases hk : i < emps.length
      · obtain ⟨t, ht⟩ := ih (emps.set i { getE emps i with
          assigned_shifts := (getE emps i).assigned_shifts ++ [(day_num, shift)] })
        rw [getE_set_self emps i _ hk] at ht
        exact ⟨(day_num, shift) :: t, by rw [ht]; simp⟩
      · rw [List.set_eq_of_length_le (by omega)]
        exact ih emps
    · obtain ⟨t, ht⟩ := ih (emps.set k { getE emps k with
        assigned_shifts := (getE emps k).assigned_shifts ++ [(day_num, shift)] })
      rw [getE_set_ne emps k _ i hki] at ht
      exact ⟨t, ht⟩

/-- Every selected position receives this slot in its `assigned_shifts`. -/
theorem record_assignments_mem (sel : List Nat) (day_num : Nat) (shift : String)
    (i : Nat) :
    ∀ emps : List Employee, i ∈ sel → i < emps.length →
      (day_num, shift) ∈ (getE (record_assignments emps sel day_num shift) i).assigned_shifts := by
  induction sel with
  | nil => intro emps hi _; cases hi
  | cons k rest ih =>
    intro emps hi hlt
    rw [record_assignments_cons]
    rcases List.mem_cons.mp hi with rfl | hi'
    · obtain ⟨t, ht⟩ := record_assignments_mono
        (emps.set i { getE emps i with
          assigned_shifts := (getE emps i).assigned_shifts ++ [(day_num, shift)] })
        rest day_num shift i
      rw [ht, getE_set_self emps i _ hlt]
      simp
    · exact ih _ hi' (by simpa using hlt)

/-- If a roster name occurs in a slot's output, the corresponding position was
selected for the slot (distinct names, sentinel not a roster name). -/
theorem name_in_out_selected (year month people_per_shift : Nat)
    (employees r : List Employee) (hfe : FieldsEq r employees)
    (hnames : (employees.map Employee.name).Nodup)
    (hsent : ∀ e ∈ employees, e.name ≠ Sentinel)
    (day_num : Nat) (shift : String) (i : Nat) (hi : i < employees.length)
    (hmem : (getE employees i).name ∈
      (process_slot year month people_per_shift r day_num shift).1) :
    i ∈ select_for_slot year month people_per_shift r day_num shift := by
  rcases mem_process_slot_name year month people_per_shift r day_num shift _ hmem with
    hx | ⟨j, hj, hname⟩
  · exact absurd hx (hsent _ (getE_mem employees hi))
  · have hjlt : j < employees.length := by
      have := mem_select_lt year month people_per_shift r day_num shift j hj
      rwa [hfe.length_eq] at this
    have hname' : (getE employees j).name = (getE employees i).name := by
      rw [← hfe.name_getE j]; exact hname
    have hij := name_getE_inj employees hnames hjlt hi hname'
    exact hij ▸ hj

/-- Invariant: any name occurring in a committed slot value has that slot in
the employee's per-run assigned set. -/
def InvAssigned (employees : List Employee) (st : Schedule × List Employee) : Prop :=
  ∀ d' s' v, sched_get st.1 d' s' = some v →
  ∀ i, i < employees.length → (getE employees i).name ∈ v →
    (d', s') ∈ (getE st.2 i).assigned_shifts

/-- Invariant: an employee in two distinct shifts of the same day was mandatory
for at least one of them. -/
def InvNoDouble (year month : Nat) (employees : List Employee) (sch : Schedule) : Prop :=
  ∀ d' s1 s2 v1 v2, sched_get sch d' s1 = some v1 → sched_get sch d' s2 = some v2 →
    s1 ≠ s2 → ∀ i, i < employees.length →
    (getE employees i).name ∈ v1 → (getE employees i).name ∈ v2 →
    i ∈ mandatory_for employees (year, month, d') s1 ∨
    i ∈ mandatory_for employees (year, month, d') s2

theorem inv_preserved_run_shift (year month people_per_shift : Nat)
    (employees : List Employee)
    (hnames : (employees.map Employee.name).Nodup)
    (hsent : ∀ e ∈ employees, e.name ≠ Sentinel)
    (d₀ : Nat) (s₀ : String) (st : Schedule × List Employee)
    (hfe : FieldsEq st.2 employees)
    (h1 : InvAssigned employees st)
    (h2 : InvNoDouble year month employees st.1) :
    InvAssigned employees (run_shift year month people_per_shift d₀ st s₀) ∧
    InvNoDouble year month employees
      (run_shift year month people_per_shift d₀ st s₀).1 := by
  have hmono : ∀ i, ∃ t,
      (getE (process_slot year month people_per_shift st.2 d₀ s₀).2 i).assigned_shifts
        = (getE st.2 i).assigned_shifts ++ t := by
    intro i
    simp only [process_slot]
    by_cases hc : select_for_slot year month people_per_shift st.2 d₀ s₀ = []
    · rw [if_pos hc]
      exact ⟨[], (List.append_nil _).symm⟩
    · rw [if_neg hc]
      exact record_assignments_mono st.2 _ d₀ s₀ i
  have hnew : ∀ i, i < employees.length →
      (getE employees i).name ∈ (process_slot year month people_per_shift st.2 d₀ s₀).1 →
      (d₀, s₀) ∈ (getE (process_slot year month people_per_shift st.2 d₀ s₀).2 i).assigned_shifts := by
    intro i hi hmem
    have hisel := name_in_out_selected year month people_per_shift employees st.2 hfe
      hnames hsent d₀ s₀ i hi hmem
    have hne : select_for_slot year month people_per_shift st.2 d₀ s₀ ≠ [] := by
      intro he
      rw [he] at hisel
      cases hisel
    simp only [process_slot]
    rw [if_neg hne]
    exact record_assignments_mem _ d₀ s₀ i st.2 hisel (by rw [hfe.length_eq]; exact hi)
  have hsch' : (run_shift year month people_per_shift d₀ st s₀).1
      = sched_set st.1 d₀ s₀ (process_slot year month people_per_shift st.2 d₀ s₀).1 := rfl
  have hr' : (run_shift year month people_per_shift d₀ st s₀).2
      = (process_slot year month people_per_shift st.2 d₀ s₀).2 := rfl
  constructor
  · -- InvAssigned is preserved
    intro d' s' v hv i hi hname
    rw [hsch', sched_get_sched_set] at hv
    rw [hr']
    by_cases hcase : d' = d₀ ∧ s' = s₀
    · rw [if_pos hcase] at hv
      obtain ⟨rfl, rfl⟩ := hcase
      cases hv
      exact hnew i hi hname
    · rw [if_neg hcase] at hv
      obtain ⟨t, ht⟩ := hmono i
      rw [ht]
      exact List.mem_append_left _ (h1 d' s' v hv i hi hname)
  · -- InvNoDouble is preserved
    intro d' s1 s2 v1 v2 hv1 hv2 hss i hi hn1 hn2
    rw [hsch', sched_get_sched_set] at hv1 hv2
    have hkey : ∀ (sA sB : String) (vA vB : List String),
        (d' = d₀ ∧ sA = s₀) →
        ¬ (d' = d₀ ∧ sB = s₀) →
        (if d' = d₀ ∧ sA = s₀ then
            some (process_slot year month people_per_shift st.2 d₀ s₀).1
          else sched_get st.1 d' sA) = some vA →
        (if d' = d₀ ∧ sB = s₀ then
            some (process_slot year month people_per_shift st.2 d₀ s₀).1
          else sched_get st.1 d' sB) = some vB →
        (getE employees i).name ∈ vA → (getE employees i).name ∈ vB →
        i ∈ mandatory_for employees (year, month, d') sA ∨
        i ∈ mandatory_for employees (year, month, d') sB := by
      intro sA sB vA vB hcA hcB hvA hvB hnA hnB
      rw [if_pos hcA] at hvA
      rw [if_neg hcB] at hvB
      obtain ⟨hd, hsA⟩ := hcA
      cases hvA
      subst hd
      subst hsA
      have hisel := name_in_out_selected year month people_per_shift employees st.2 hfe
        hnames hsent d' sA i hi hnA
      by_cases hm : i ∈ mandatory_for st.2 (year, month, d') sA
      · left
        rwa [mandatory_for_congr hfe] at hm
      · rcases mem_select_cases year month people_per_shift st.2 d' sA i hisel with h | h
        · exact absurd h hm
        · have hold := h1 d' sB vB hvB i hi hnB
          have hday : d' ∈ assigned_days (getE st.2 i) := by
            unfold assigned_days
            exact List.mem_map_of_mem _ hold
          exact absurd hday h.2.2
    by_cases hc1 : d' = d₀ ∧ s1 = s₀ <;> by_cases hc2 : d' = d₀ ∧ s2 = s₀
    · exact absurd (hc1.2.trans hc2.2.symm) hss
    · exact hkey s1 s2 v1 v2 hc1 hc2 hv1 hv2 hn1 hn2
    · exact (hkey s2 s1 v2 v1 hc2 hc1 hv2 hv1 hn2 hn1).symm
    · rw [if_neg hc1] at hv1
      rw [if_neg hc2] at hv2
      exact h2 d' s1 s2 v1 v2 hv1 hv2 hss i hi hn1 hn2

theorem inv_run_days (year month people_per_shift : Nat) (employees : List Employee)
    (shifts_per_day : List String) (days : List Nat)
    (hnames : (employees.map Employee.name).Nodup)
    (hsent : ∀ e ∈ employees, e.name ≠ Sentinel) :
    InvNoDouble year month employees
      (run_days year month people_per_shift shifts_per_day days employees).1 := by
  unfold run_days
  suffices h : ∀ (ds : List Nat) (st : Schedule × List Employee),
      FieldsEq st.2 employees → InvAssigned employees st →
      InvNoDouble year month employees st.1 →
      FieldsEq (ds.foldl (run_day year month people_per_shift shifts_per_day) st).2 employees ∧
      InvAssigned employees (ds.foldl (run_day year month people_per_shift shifts_per_day) st) ∧
      InvNoDouble year month employees
        (ds.foldl (run_day year month people_per_shift shifts_per_day) st).1 by
    refine (h days ([], employees) (FieldsEq.refl _) ?_ ?_).2.2
    · intro d' s' v hv
      simp [sched_get, dlookup] at hv
    · intro d' s1 s2 v1 v2 hv1
      simp [sched_get, dlookup] at hv1
  intro ds
  induction ds with
  | nil => exact fun st hfe h1 h2 => ⟨hfe, h1, h2⟩
  | cons d₁ rest ih =>
    intro st hfe h1 h2
    rw [List.foldl_cons]
    apply ih
    · exact (fields_run_day year month people_per_shift shifts_per_day st d₁).trans hfe
    all_goals {
      have hone : ∀ (ss : List String) (st' : Schedule × List Employee),
          FieldsEq st'.2 employees → InvAssigned employees st' →
          InvNoDouble year month employees st'.1 →
          FieldsEq (ss.foldl (run_shift year month people_per_shift d₁) st').2 employees ∧
          InvAssigned employees (ss.foldl (run_shift year month people_per_shift d₁) st') ∧
          InvNoDouble year month employees
            (ss.foldl (run_shift year month people_per_shift d₁) st').1 := by
        intro ss
        induction ss with
        | nil => exact fun st' hfe' h1' h2' => ⟨hfe', h1', h2'⟩
        | cons s₁ ssrest ihs =>
          intro st' hfe' h1' h2'
          rw [List.foldl_cons]
          apply ihs
          · exact (fields_run_shift year month people_per_shift d₁ st' s₁).trans hfe'
          · exact (inv_preserved_run_shift year month people_per_shift employees hnames hsent
              d₁ s₁ st' hfe' h1' h2').1
          · exact (inv_preserved_run_shift year month people_per_shift employees hnames hsent
              d₁ s₁ st' hfe' h1' h2').2
      unfold run_day
      first
        | exact (hone shifts_per_day st hfe h1 h2).2.1
        | exact (hone shifts_per_day st hfe h1 h2).2.2
    }

/-- C8.  If the same employee's name appears in two distinct shifts of the same
day of the generated schedule, the employee was mandatory for at least one of
the two slots: the fill path's day-level exclusivity guard prevents every
non-mandatory second assignment on a day (roster names distinct, sentinel not a
roster name). -/
theorem double_booking_only_mandatory (employees : List Employee)
    (shifts_per_day : List String) (people_per_shift month year : Nat)
    (week : Option Nat) (sch : Schedule) (rfin : List Employee)
    (hrun : create_schedule employees shifts_per_day people_per_shift month year week
        = some (sch, rfin))
    (hnames : (employees.map Employee.name).Nodup)
    (hsent : ∀ e ∈ employees, e.name ≠ Sentinel)
    (d : Nat) (s1 s2 : String) (v1 v2 : List String)
    (hv1 : sched_get sch d s1 = some v1) (hv2 : sched_get sch d s2 = some v2)
    (hss : s1 ≠ s2) (i : Nat) (hi : i < employees.length)
    (hn1 : (getE employees i).name ∈ v1) (hn2 : (getE employees i).name ∈ v2) :
    (getE employees i).must_work (year, month, d) s1 = true ∨
    (getE employees i).must_work (year, month, d) s2 = true := by
  obtain ⟨days, hds, hrd⟩ := create_schedule_some hrun
  have hsch : (run_days year month people_per_shift shifts_per_day days employees).1 = sch := by
    rw [hrd]
  have hinv := inv_run_days year month people_per_shift employees shifts_per_day days
    hnames hsent
  rw [hsch] at hinv
  rcases hinv d s1 s2 v1 v2 hv1 hv2 hss i hi hn1 hn2 with h | h
  · exact Or.inl (List.mem_filter.mp h).2
  · exact Or.inr (List.mem_filter.mp h).2

/-! ### Per-run reset of the assigned counters (C5) -/

theorem map_working_copy_congr {r r' : List Employee} (h : FieldsEq r r') :
    r.map working_copy = r'.map working_copy := by
  have hwc : ∀ l : List Employee, l.map working_copy =
      (l.map fields).map (fun p => ⟨p.1, p.2.1, p.2.2, []⟩) := by
    intro l
    rw [List.map_map]
    rfl
  rw [hwc r, hwc r', h]

theorem working_copy_idem (l : List Employee) :
    (l.map working_copy).map working_copy = l.map working_copy := by
  rw [List.map_map]
  rfl

/-- C5.  Each engine run starts from working copies whose `assigned_shifts` are
empty, and no per-run assignment state persists: even re-invoking the engine on
the roster state *mutated by a previous run* (with identical inputs) produces
the identical schedule again, because the fresh copies coincide.  In
particular, two invocations on the same untouched roster are equal runs. -/
theorem assigned_reset_no_persistence (employees : List Employee)
    (shifts_per_day : List String) (people_per_shift month year : Nat)
    (week : Option Nat) (sch : Schedule) (rfin : List Employee)
    (hrun : generate_schedule employees shifts_per_day people_per_shift month year week
        = some (sch, rfin)) :
    (∀ e ∈ employees.map working_copy, e.assigned_shifts = []) ∧
    generate_schedule rfin shifts_per_day people_per_shift month year week
      = some (sch, rfin) := by
  constructor
  · intro e he
    obtain ⟨e₀, _, rfl⟩ := List.mem_map.mp he
    rfl
  · have hrun' : create_schedule (employees.map working_copy) shifts_per_day
        people_per_shift month year week = some (sch, rfin) := hrun
    obtain ⟨days, hds, hrd⟩ := create_schedule_some hrun'
    have hfe : FieldsEq rfin (employees.map working_copy) := by
      have h1 := fields_run_days year month people_per_shift shifts_per_day days
        (employees.map working_copy)
      rwa [hrd] at h1
    have hwc : rfin.map working_copy = employees.map working_copy := by
      rw [map_working_copy_congr hfe, working_copy_idem]
    show create_schedule (rfin.map working_copy) shifts_per_day people_per_shift
        month year week = some (sch, rfin)
    rw [hwc]
    exact hrun'

/-! ### Fairness in the unconstrained case (C9) -/

theorem contains_false_of_not_mem {α : Type} [BEq α] [LawfulBEq α] {l : List α} {a : α}
    (h : a ∉ l) : l.contains a = false := by
  cases hc : l.contains a
  · rfl
  · have hc' : List.elem a l = true := hc
    exact absurd (List.mem_of_elem_eq_true hc') h

theorem record_assignments_not_mem (sel : List Nat) (day_num : Nat) (shift : String)
    (i : Nat) :
    ∀ emps : List Employee, i ∉ sel →
      getE (record_assignments emps sel day_num shift) i = getE emps i := by
  induction sel with
  | nil => intro emps _; rfl
  | cons k rest ih =>
    intro emps hi
    rw [record_assignments_cons]
    have hik : i ≠ k := fun he => hi (he ▸ List.mem_cons_self k rest)
    rw [ih _ (fun hmem => hi (List.mem_cons_of_mem _ hmem))]
    exact getE_set_ne emps k _ i hik

theorem record_assignments_mem_nodup (sel : List Nat) (day_num : Nat) (shift : String)
    (i : Nat) :
    ∀ emps : List Employee, sel.Nodup → i ∈ sel → i < emps.length →
      (getE (record_assignments emps sel day_num shift) i).assigned_shifts
        = (getE emps i).assigned_shifts ++ [(day_num, shift)] := by
  induction sel with
  | nil => intro _ _ hi _; cases hi
  | cons k rest ih =>
    intro emps hnd hi hlt
    rw [record_assignments_cons]
    rcases List.mem_cons.mp hi with rfl | hi'
    · have hirest : i ∉ rest := (List.nodup_cons.mp hnd).1
      rw [record_assignments_not_mem rest day_num shift i _ hirest]
      rw [getE_set_self emps i _ hlt]
    · have hik : i ≠ k := by
        intro he
        subst he
        exact (List.nodup_cons.mp hnd).1 hi'
      rw [ih _ (List.nodup_cons.mp hnd).2 hi' (by simpa using hlt)]
      rw [getE_set_ne emps k _ i hik]

/-- Take of a sorted selection: anyone with a strictly smaller key than a taken
element is taken as well. -/
theorem mem_take_sort_of_key_lt (r : List Employee) (avail : List Nat)
    (people_per_shift : Nat) {h l : Nat}
    (hh : h ∈ (sort_by_shifts r avail).take people_per_shift) (hl : l ∈ avail)
    (hlt : (getE r l).assigned_shifts.length < (getE r h).assigned_shifts.length) :
    l ∈ (sort_by_shifts r avail).take people_per_shift := by
  by_contra hnot
  have hls : l ∈ sort_by_shifts r avail := (sort_by_shifts_perm r avail).mem_iff.mpr hl
  have hld : l ∈ (sort_by_shifts r avail).drop people_per_shift := by
    have hsplit : l ∈ (sort_by_shifts r avail).take people_per_shift ++
        (sort_by_shifts r avail).drop people_per_shift := by
      rw [List.take_append_drop]
      exact hls
    rcases List.mem_append.mp hsplit with hx | hx
    · exact absurd hx hnot
    · exact hx
  have hrel := (sort_by_shifts_sorted r avail).rel_of_mem_take_of_mem_drop hh hld
  unfold shifts_le at hrel
  omega

/-- The invariant maintained while processing the shifts of one day `d`, given
the roster state `r0` at the start of the day: fields unchanged, every
`assigned_shifts` list extended by at most one entry (of day `d`), and the
picked-today set downward closed with respect to start-of-day counters. -/
def DayInv (d : Nat) (r0 r : List Employee) : Prop :=
  FieldsEq r r0 ∧
  (∀ i, i < r.length →
    (getE r i).assigned_shifts = (getE r0 i).assigned_shifts ∨
    ∃ s, (getE r i).assigned_shifts = (getE r0 i).assigned_shifts ++ [(d, s)]) ∧
  (∀ h, h < r.length → (getE r h).assigned_shifts ≠ (getE r0 h).assigned_shifts →
   ∀ l, l < r.length →
     (getE r0 l).assigned_shifts.length < (getE r0 h).assigned_shifts.length →
     (getE r l).assigned_shifts ≠ (getE r0 l).assigned_shifts)

theorem day_inv_step (year month people_per_shift : Nat) (employees : List Employee)
    (hnc : ∀ e ∈ employees, e.unavailable_dates = [] ∧ e.mandatory_dates = [])
    (d : Nat) (r0 : List Employee) (hfe0 : FieldsEq r0 employees)
    (hstart : ∀ i, i < r0.length → d ∉ assigned_days (getE r0 i))
    (r : List Employee) (hinv : DayInv d r0 r) (s : String) :
    DayInv d r0 (process_slot year month people_per_shift r d s).2 := by
  obtain ⟨hfe, happ, hdown⟩ := hinv
  have hlen : r.length = r0.length := hfe.length_eq
  have hfe' : FieldsEq r employees := hfe.trans hfe0
  have hlenE : r.length = employees.length := hfe'.length_eq
  have hM : mandatory_for r (year, month, d) s = [] := by
    unfold mandatory_for
    rw [List.filter_eq_nil_iff]
    intro i hi
    have hi' : i < employees.length := by
      rw [← hlenE]
      exact List.mem_range.mp hi
    have hmand : (getE r i).mandatory_dates = [] := by
      rw [hfe'.mandatory_getE i]
      exact (hnc _ (getE_mem employees hi')).2
    simp [Employee.must_work, hmand]
  have hunpicked : ∀ i, i < r.length →
      ((assigned_days (getE r i)).contains d = false ↔
        (getE r i).assigned_shifts = (getE r0 i).assigned_shifts) := by
    intro i hi
    constructor
    · intro hc
      rcases happ i hi with hcase | ⟨s', hs'⟩
      · exact hcase
      · exfalso
        have hd : d ∈ assigned_days (getE r i) := by
          unfold assigned_days
          rw [hs']
          simp
        have := contains_true_of_mem hd
        rw [hc] at this
        cases this
    · intro he
      apply contains_false_of_not_mem
      unfold assigned_days
      rw [he]
      exact hstart i (by omega)
  by_cases hbr : people_per_shift ≤ (mandatory_for r (year, month, d) s).length
  · -- the mandatory list is empty, so the selection is empty: nothing changes
    have hsel : select_for_slot year month people_per_shift r d s = [] := by
      simp only [select_for_slot]
      rw [if_pos hbr, hM]
      simp [sort_by_shifts]
    have hps : process_slot year month people_per_shift r d s = ([Sentinel], r) := by
      simp only [process_slot]
      rw [hsel]
      simp
    rw [hps]
    exact ⟨hfe, happ, hdown⟩
  · have hNpos : 0 < people_per_shift := by
      rw [hM] at hbr
      simp at hbr
      omega
    have hbranch : select_for_slot year month people_per_shift r d s
        = (sort_by_shifts r ((List.range r.length).filter (fun i =>
            (getE r i).is_available (year, month, d) s &&
            !((assigned_days (getE r i)).contains d) &&
            !(([] : List Nat).contains i)))).take people_per_shift := by
      simp only [select_for_slot]
      rw [if_neg hbr, hM]
      rw [if_pos (show 0 < people_per_shift - List.length ([] : List Nat) by
        simpa using hNpos)]
      simp
    have havail_mem : ∀ i, i ∈ (List.range r.length).filter (fun i =>
        (getE r i).is_available (year, month, d) s &&
        !((assigned_days (getE r i)).contains d) &&
        !(([] : List Nat).contains i)) ↔
        (i < r.length ∧ (getE r i).assigned_shifts = (getE r0 i).assigned_shifts) := by
      intro i
      rw [List.mem_filter]
      constructor
      · rintro ⟨hir, hp⟩
        have hir' : i < r.length := List.mem_range.mp hir
        refine ⟨hir', ?_⟩
        simp only [Bool.and_eq_true, Bool.not_eq_true'] at hp
        exact (hunpicked i hir').mp hp.1.2
      · rintro ⟨hir, hun⟩
        refine ⟨List.mem_range.mpr hir, ?_⟩
        have hc : (assigned_days (getE r i)).contains d = false := (hunpicked i hir).mpr hun
        have hav : (getE r i).is_available (year, month, d) s = true := by
          unfold Employee.is_available
          have hu : (getE r i).unavailable_dates = [] := by
            rw [hfe'.unavailable_getE i]
            exact (hnc _ (getE_mem employees (by omega))).1
          rw [hu]
          simp
        rw [hav, hc]
        rfl
    have hperm := sort_by_shifts_perm r ((List.range r.length).filter (fun i =>
      (getE r i).is_available (year, month, d) s &&
      !((assigned_days (getE r i)).contains d) &&
      !(([] : List Nat).contains i)))
    have hsel_sub : ∀ i ∈ select_for_slot year month people_per_shift r d s,
        i ∈ (List.range r.length).filter (fun i =>
          (getE r i).is_available (year, month, d) s &&
          !((assigned_days (getE r i)).contains d) &&
          !(([] : List Nat).contains i)) := by
      intro i hi
      rw [hbranch] at hi
      exact hperm.mem_iff.mp (List.mem_of_mem_take hi)
    have hsel_nd : (select_for_slot year month people_per_shift r d s).Nodup := by
      rw [hbranch]
      apply List.Nodup.sublist (List.take_sublist _ _)
      exact hperm.symm.nodup (List.Nodup.filter _ (List.nodup_range _))
    have hsel_lt : ∀ i ∈ select_for_slot year month people_per_shift r d s, i < r.length :=
      fun i hi => ((havail_mem i).mp (hsel_sub i hi)).1
    have hsel_unpicked : ∀ i ∈ select_for_slot year month people_per_shift r d s,
        (getE r i).assigned_shifts = (getE r0 i).assigned_shifts :=
      fun i hi => ((havail_mem i).mp (hsel_sub i hi)).2
    by_cases hempty : select_for_slot year month people_per_shift r d s = []
    · have hps : process_slot year month people_per_shift r d s = ([Sentinel], r) := by
        simp only [process_slot]
        rw [hempty]
        simp
      rw [hps]
      exact ⟨hfe, happ, hdown⟩
    · have hr' : (process_slot year month people_per_shift r d s).2
          = record_assignments r (select_for_slot year month people_per_shift r d s) d s := by
        simp only [process_slot]
        rw [if_neg hempty]
      rw [hr']
      have hlen' : (record_assignments r
          (select_for_slot year month people_per_shift r d s) d s).length = r.length :=
        (fields_record_assignments r _ d s).length_eq
      have hrec_mem : ∀ i ∈ select_for_slot year month people_per_shift r d s,
          (getE (record_assignments r (select_for_slot year month people_per_shift r d s)
            d s) i).assigned_shifts = (getE r i).assigned_shifts ++ [(d, s)] :=
        fun i hi => record_assignments_mem_nodup _ d s i r hsel_nd hi (hsel_lt i hi)
      have hrec_not : ∀ i, i ∉ select_for_slot year month people_per_shift r d s →
          getE (record_assignments r (select_for_slot year month people_per_shift r d s)
            d s) i = getE r i :=
        fun i hi => record_assignments_not_mem _ d s i r hi
      refine ⟨(fields_record_assignments r _ d s).trans hfe, ?_, ?_⟩
      · intro i hi
        rw [hlen'] at hi
        by_cases his : i ∈ select_for_slot year month people_per_shift r d s
        · right
          refine ⟨s, ?_⟩
          rw [hrec_mem i his, hsel_unpicked i his]
        · rw [hrec_not i his]
          exact happ i hi
      · intro h hh hpick l hl hlt
        rw [hlen'] at hh hl
        by_cases hls : l ∈ select_for_slot year month people_per_shift r d s
        · rw [hrec_mem l hls, hsel_unpicked l hls]
          intro he
          have := congrArg List.length he
          simp at this
        · rw [hrec_not l hls]
          by_cases hhs : h ∈ select_for_slot year month people_per_shift r d s
          · -- h newly picked this slot; if l were unpicked it would have been taken
            intro hleq
            apply hls
            have hlavail : l ∈ (List.range r.length).filter (fun i =>
                (getE r i).is_available (year, month, d) s &&
                !((assigned_days (getE r i)).contains d) &&
                !(([] : List Nat).contains i)) := (havail_mem l).mpr ⟨hl, hleq⟩
            have hhc : (getE r h).assigned_shifts.length
                = (getE r0 h).assigned_shifts.length :=
              congrArg List.length (hsel_unpicked h hhs)
            have hlc : (getE r l).assigned_shifts.length
                = (getE r0 l).assigned_shifts.length := congrArg List.length hleq
            have hkey : (getE r l).assigned_shifts.length
                < (getE r h).assigned_shifts.length := by omega
            rw [hbranch] at hhs ⊢
            exact mem_take_sort_of_key_lt r _ people_per_shift hhs hlavail hkey
          · have hpick_r : (getE r h).assigned_shifts ≠ (getE r0 h).assigned_shifts := by
              rw [hrec_not h hhs] at hpick
              exact hpick
            exact hdown h hh hpick_r l hl hlt

theorem day_inv_run_day (year month people_per_shift : Nat) (employees : List Employee)
    (hnc : ∀ e ∈ employees, e.unavailable_dates = [] ∧ e.mandatory_dates = [])
    (d : Nat) (r0 : List Employee) (hfe0 : FieldsEq r0 employees)
    (hstart : ∀ i, i < r0.length → d ∉ assigned_days (getE r0 i)) :
    ∀ (ss : List String) (st : Schedule × List Employee), DayInv d r0 st.2 →
      DayInv d r0 ((ss.foldl (run_shift year month people_per_shift d) st)).2 := by
  intro ss
  induction ss with
  | nil => exact fun st h => h
  | cons s rest ih =>
    intro st h
    rw [List.foldl_cons]
    apply ih
    exact day_inv_step year month people_per_shift employees hnc d r0 hfe0 hstart st.2 h s

/-- If the start-of-day spread is at most one, so is the end-of-day spread. -/
theorem day_end_spread (d : Nat) (r0 r1 : List Employee) (hinv : DayInv d r0 r1)
    (hspread : ∀ i j, i < r0.length → j < r0.length →
      (getE r0 i).assigned_shifts.length ≤ (getE r0 j).assigned_shifts.length + 1) :
    ∀ i j, i < r1.length → j < r1.length →
      (getE r1 i).assigned_shifts.length ≤ (getE r1 j).assigned_shifts.length + 1 := by
  obtain ⟨hfe, happ, hdown⟩ := hinv
  have hlen := hfe.length_eq
  intro i j hi hj
  have hi0 : i < r0.length := by omega
  have hj0 : j < r0.length := by omega
  have hci : (getE r1 i).assigned_shifts.length = (getE r0 i).assigned_shifts.length ∨
      (getE r1 i).assigned_shifts.length = (getE r0 i).assigned_shifts.length + 1 := by
    rcases happ i hi with h | ⟨s, hs⟩
    · exact Or.inl (congrArg List.length h)
    · right
      rw [hs]
      simp
  have hcj : (getE r1 j).assigned_shifts.length = (getE r0 j).assigned_shifts.length ∨
      (getE r1 j).assigned_shifts.length = (getE r0 j).assigned_shifts.length + 1 := by
    rcases happ j hj with h | ⟨s, hs⟩
    · exact Or.inl (congrArg List.length h)
    · right
      rw [hs]
      simp
  have hsp := hspread i j hi0 hj0
  by_cases hhard : (getE r1 i).assigned_shifts.length
      = (getE r0 i).assigned_shifts.length + 1 ∧
      (getE r0 j).assigned_shifts.length < (getE r0 i).assigned_shifts.length
  · obtain ⟨hci1, hlt⟩ := hhard
    have hpick : (getE r1 i).assigned_shifts ≠ (getE r0 i).assigned_shifts := by
      intro he
      have := congrArg List.length he
      omega
    have hpickj := hdown i hi hpick j hj hlt
    rcases happ j hj with h | ⟨s, hs⟩
    · exact absurd h hpickj
    · have : (getE r1 j).assigned_shifts.length
          = (getE r0 j).assigned_shifts.length + 1 := by
        rw [hs]
        simp
      omega
  · rcases hci with hci | hci <;> rcases hcj with hcj | hcj <;> omega

/-- Outer induction over the days: fields preserved, every assignment's day
among the processed days, and the fairness spread at most one throughout. -/
theorem outer_spread (year month people_per_shift : Nat) (employees : List Employee)
    (shifts_per_day : List String)
    (hnc : ∀ e ∈ employees, e.unavailable_dates = [] ∧ e.mandatory_dates = []) :
    ∀ (ds : List Nat) (P : List Nat) (st : Schedule × List Employee),
      ds.Nodup → (∀ x ∈ ds, x ∉ P) →
      FieldsEq st.2 employees →
      (∀ i, i < st.2.length → ∀ p ∈ (getE st.2 i).assigned_shifts, p.1 ∈ P) →
      (∀ i j, i < st.2.length → j < st.2.length →
        (getE st.2 i).assigned_shifts.length ≤ (getE st.2 j).assigned_shifts.length + 1) →
      FieldsEq (ds.foldl (run_day year month people_per_shift shifts_per_day) st).2
        employees ∧
      (∀ i, i < (ds.foldl (run_day year month people_per_shift shifts_per_day) st).2.length →
        ∀ p ∈ (getE (ds.foldl (run_day year month people_per_shift shifts_per_day) st).2
          i).assigned_shifts, p.1 ∈ P ∨ p.1 ∈ ds) ∧
      (∀ i j,
        i < (ds.foldl (run_day year month people_per_shift shifts_per_day) st).2.length →
        j < (ds.foldl (run_day year month people_per_shift shifts_per_day) st).2.length →
        (getE (ds.foldl (run_day year month people_per_shift shifts_per_day) st).2
          i).assigned_shifts.length ≤
        (getE (ds.foldl (run_day year month people_per_shift shifts_per_day) st).2
          j).assigned_shifts.length + 1) := by
  intro ds
  induction ds with
  | nil =>
    intro P st _ _ hf hP hsp
    exact ⟨hf, fun i hi p hp => Or.inl (hP i hi p hp), hsp⟩
  | cons d rest ih =>
    intro P st hnd hdisj hf hP hsp
    rw [List.foldl_cons]
    have hstart : ∀ i, i < st.2.length → d ∉ assigned_days (getE st.2 i) := by
      intro i hi hd
      unfold assigned_days at hd
      obtain ⟨p, hp, hp1⟩ := List.mem_map.mp hd
      have hmem := hP i hi p hp
      rw [hp1] at hmem
      exact hdisj d (List.mem_cons_self _ _) hmem
    have hday : DayInv d st.2
        (run_day year month people_per_shift shifts_per_day st d).2 := by
      unfold run_day
      exact day_inv_run_day year month people_per_shift employees hnc d st.2 hf hstart
        shifts_per_day st
        ⟨FieldsEq.refl _, fun i _ => Or.inl rfl, fun h _ hpick => absurd rfl hpick⟩
    have hf1 : FieldsEq (run_day year month people_per_shift shifts_per_day st d).2
        employees := hday.1.trans hf
    have hlen1 : (run_day year month people_per_shift shifts_per_day st d).2.length
        = st.2.length := hday.1.length_eq
    have hP1 : ∀ i, i < (run_day year month people_per_shift shifts_per_day st d).2.length →
        ∀ p ∈ (getE (run_day year month people_per_shift shifts_per_day st d).2
          i).assigned_shifts, p.1 ∈ d :: P := by
      intro i hi p hp
      rcases hday.2.1 i hi with h | ⟨s, hs⟩
      · rw [h] at hp
        exact List.mem_cons_of_mem _ (hP i (by omega) p hp)
      · rw [hs] at hp
        rcases List.mem_append.mp hp with h' | h'
        · exact List.mem_cons_of_mem _ (hP i (by omega) p h')
        · have hp1 : p = (d, s) := by simpa using h'
          rw [hp1]
          exact List.mem_cons_self _ _
    have hsp1 := day_end_spread d st.2
      (run_day year month people_per_shift shifts_per_day st d).2 hday hsp
    have hres := ih (d :: P) (run_day year month people_per_shift shifts_per_day st d)
      (List.nodup_cons.mp hnd).2
      (fun x hx hmem => by
        rcases List.mem_cons.mp hmem with rfl | hmem'
        · exact (List.nodup_cons.mp hnd).1 hx
        · exact hdisj x (List.mem_cons_of_mem _ hx) hmem')
      hf1 hP1 hsp1
    refine ⟨hres.1, ?_, hres.2.2⟩
    intro i hi p hp
    rcases hres.2.1 i hi p hp with h | h
    · rcases List.mem_cons.mp h with he | h'
      · exact Or.inr (by rw [he]; exact List.mem_cons_self _ _)
      · exact Or.inl h'
    · exact Or.inr (List.mem_cons_of_mem _ h)

/-- C9.  With no mandatory and no unavailability constraints (and the per-run
counters starting empty), the spread (max minus min) of the final
FairnessCounter values — the lengths of the final `assigned_shifts` lists — is
at most 1, stated pairwise.  The claim's divisibility hypothesis (total slot
count divisible by roster size) is kept, though the bound holds even without
it. -/
theorem fairness_spread_uniform (employees : List Employee)
    (shifts_per_day : List String) (people_per_shift month year : Nat)
    (week : Option Nat) (sch : Schedule) (rfin : List Employee)
    (hrun : create_schedule employees shifts_per_day people_per_shift month year week
        = some (sch, rfin))
    (hnc : ∀ e ∈ employees,
      e.unavailable_dates = [] ∧ e.mandatory_dates = [] ∧ e.assigned_shifts = [])
    (hdvd : (((days_to_schedule year month week).getD []).length * shifts_per_day.length)
        % employees.length = 0) :
    ∀ e1 ∈ rfin, ∀ e2 ∈ rfin,
      e1.assigned_shifts.length ≤ e2.assigned_shifts.length + 1 := by
  obtain ⟨days, hds, hrd⟩ := create_schedule_some hrun
  have hnodup := days_to_schedule_nodup year month week days hds
  have hres := outer_spread year month people_per_shift employees shifts_per_day
    (fun e he => ⟨(hnc e he).1, (hnc e he).2.1⟩) days [] ([], employees) hnodup
    (fun x _ => List.not_mem_nil x)
    (FieldsEq.refl _)
    (fun i hi p hp => by
      have hass := (hnc _ (getE_mem employees hi)).2.2
      rw [hass] at hp
      cases hp)
    (fun i j hi hj => by
      rw [(hnc _ (getE_mem employees hi)).2.2, (hnc _ (getE_mem employees hj)).2.2]
      simp)
  have hfin : (days.foldl (run_day year month people_per_shift shifts_per_day)
      ([], employees)).2 = rfin := by
    have := congrArg Prod.snd hrd
    simpa [run_days] using this
  rw [hfin] at hres
  intro e1 he1 e2 he2
  obtain ⟨i, hi, hie⟩ := List.getElem_of_mem he1
  obtain ⟨j, hj, hje⟩ := List.getElem_of_mem he2
  have hgi : getE rfin i = e1 := by
    unfold getE
    rw [List.getD_eq_getElem _ _ hi]
    exact hie
  have hgj : getE rfin j = e2 := by
    unfold getE
    rw [List.getD_eq_getElem _ _ hj]
    exact hje
  have := hres.2.2 i j hi hj
  rw [hgi, hgj] at this
  exact this

/-! ### Concrete fixtures for the witnesses -/

def wEmpB : Employee := ⟨"B", [], [], []⟩

/-- Employee "A" both mandatory and unavailable for (2025-01-02, "Evening"). -/
def wE2 : List Employee :=
  [⟨"A", [(((2025 : Nat), 1, 2), "Evening")], [(((2025 : Nat), 1, 2), "Evening")], []⟩, wEmpB]

/-- Employee "A" unavailable (and not mandatory) for (2025-01-02, "Morning"). -/
def wE3 : List Employee := [⟨"A", [(((2025 : Nat), 1, 2), "Morning")], [], []⟩, wEmpB]

/-- A one-person roster unavailable for (2025-01-03, "Evening"). -/
def wE4 : List Employee := [⟨"A", [(((2025 : Nat), 1, 3), "Evening")], [], []⟩]

theorem mandatory_honored_bounded_witness :
    (mandatory_for wE2 (((2025 : Nat), 1, 2) : Date) "Evening").length ≤ 2 ∧
    (getE wE2 0).name ∈ (["A", "B"] : List String) := by
  refine ⟨by decide, ?_⟩
  exact mandatory_honored_bounded wE2 ["Evening"] 2 1 2025 (some 0)
    (((create_schedule wE2 ["Evening"] 2 1 2025 (some 0)).getD ([], [])).1)
    (((create_schedule wE2 ["Evening"] 2 1 2025 (some 0)).getD ([], [])).2)
    (by rfl) 2 "Evening" ["A", "B"] (by rfl) (by decide) 0 (by decide)

theorem unavailability_respected_witness :
    ((((2025 : Nat), 1, 2) : Date), "Morning") ∈ (getE wE3 0).unavailable_dates ∧
    (getE wE3 0).name ∉ (["B"] : List String) := by
  refine ⟨by decide, ?_⟩
  exact unavailability_respected wE3 ["Morning"] 1 1 2025 (some 0)
    (((create_schedule wE3 ["Morning"] 1 1 2025 (some 0)).getD ([], [])).1)
    (((create_schedule wE3 ["Morning"] 1 1 2025 (some 0)).getD ([], [])).2)
    (by rfl) (by decide) (by decide) 2 "Morning" ["B"] (by rfl) 0 (by decide)
    (by decide) (by decide)

theorem sentinel_on_empty_slot_witness :
    mandatory_for wE4 (((2025 : Nat), 1, 3) : Date) "Evening" = [] ∧
    (∀ i, i < wE4.length →
      (getE wE4 i).is_available (((2025 : Nat), 1, 3) : Date) "Evening" = false ∨
      3 ∈ assigned_days (getE wE4 i)) ∧
    process_slot 2025 1 1 wE4 3 "Evening" = ([Sentinel], wE4) := by
  refine ⟨by decide, by decide, ?_⟩
  exact sentinel_on_empty_slot 2025 1 1 wE4 3 "Evening" (by decide) (by decide)

/-- Three employees all mandatory for (2025-01-01, "Morning"): overflow at
headcount 2. -/
def wE1 : List Employee :=
  [⟨"A", [], [(((2025 : Nat), 1, 1), "Morning")], []⟩,
   ⟨"B", [], [(((2025 : Nat), 1, 1), "Morning")], []⟩,
   ⟨"C", [], [(((2025 : Nat), 1, 1), "Morning")], []⟩]

theorem mandatory_overflow_truncation_witness :
    0 < 2 ∧ 2 < (mandatory_for wE1 (((2025 : Nat), 1, 1) : Date) "Morning").length ∧
    (["A", "B"] : List String).length = 2 := by
  refine ⟨by decide, by decide, ?_⟩
  obtain ⟨sel, hveq, hlen, hnd, hmem, hmin, habs⟩ :=
    mandatory_overflow_truncation wE1 ["Morning"] 2 1 2025 (some 0)
      (((create_schedule wE1 ["Morning"] 2 1 2025 (some 0)).getD ([], [])).1)
      (((create_schedule wE1 ["Morning"] 2 1 2025 (some 0)).getD ([], [])).2)
      (by rfl) (by decide) (by decide) 1 "Morning" ["A", "B"] (by rfl) (by decide)
      (by decide)
  rw [hveq, List.length_map, hlen]

/-- One employee, mandatory for (2025-01-01, "E"): gets "M" via the fill path
and "E" via the mandatory path on the same day. -/
def wE8 : List Employee := [⟨"A", [], [(((2025 : Nat), 1, 1), "E")], []⟩]

theorem double_booking_only_mandatory_witness :
    ("M" : String) ≠ "E" ∧
    ((getE wE8 0).must_work (((2025 : Nat), 1, 1) : Date) "M" = true ∨
     (getE wE8 0).must_work (((2025 : Nat), 1, 1) : Date) "E" = true) := by
  refine ⟨by decide, ?_⟩
  exact double_booking_only_mandatory wE8 ["M", "E"] 1 1 2025 (some 0)
    (((create_schedule wE8 ["M", "E"] 1 1 2025 (some 0)).getD ([], [])).1)
    (((create_schedule wE8 ["M", "E"] 1 1 2025 (some 0)).getD ([], [])).2)
    (by rfl) (by decide) (by decide) 1 "M" "E" ["A"] ["A"]
    (by rfl) (by rfl) (by decide) 0 (by decide) (by decide) (by decide)

theorem assigned_reset_no_persistence_witness :
    (∀ e ∈ wE3.map working_copy, e.assigned_shifts = []) ∧
    generate_schedule
      (((generate_schedule wE3 ["Morning"] 1 1 2025 (some 0)).getD ([], [])).2)
      ["Morning"] 1 1 2025 (some 0)
      = some (((generate_schedule wE3 ["Morning"] 1 1 2025 (some 0)).getD ([], [])).1,
              ((generate_schedule wE3 ["Morning"] 1 1 2025 (some 0)).getD ([], [])).2) :=
  assigned_reset_no_persistence wE3 ["Morning"] 1 1 2025 (some 0)
    (((generate_schedule wE3 ["Morning"] 1 1 2025 (some 0)).getD ([], [])).1)
    (((generate_schedule wE3 ["Morning"] 1 1 2025 (some 0)).getD ([], [])).2)
    (by rfl)

theorem week_filter_day_keys_witness :
    (["Morning"] : List String) ≠ [] ∧
    3 ∈ (((create_schedule wE3 ["Morning"] 1 1 2025 (some 0)).getD ([], [])).1).map Prod.fst := by
  refine ⟨by decide, ?_⟩
  obtain ⟨hw, hiff⟩ := (week_filter_day_keys wE3 ["Morning"] 1 1 2025 (some 0)
    (((create_schedule wE3 ["Morning"] 1 1 2025 (some 0)).getD ([], [])).1)
    (((create_schedule wE3 ["Morning"] 1 1 2025 (some 0)).getD ([], [])).2)
    (by rfl) (by decide)).1 0 rfl
  have hrow : (monthcalendar 2025 1).get ⟨0, hw⟩ = [0, 0, 1, 2, 3, 4, 5] := by rfl
  exact (hiff 3).mpr (by rw [hrow]; decide)

theorem schedule_day_shape_witness :
    "Morning" ∈ ([("Morning", ["A"])] : DayMap).map Prod.fst ∧
    ((["A"] : List String) ≠ [] ∧
     ((["A"] : List String) = [Sentinel] ∨
      ∀ x ∈ (["A"] : List String), x ∈ wE3.map Employee.name)) := by
  have h := schedule_day_shape wE3 ["Morning"] 1 1 2025 (some 0)
    (((create_schedule wE3 ["Morning"] 1 1 2025 (some 0)).getD ([], [])).1)
    (((create_schedule wE3 ["Morning"] 1 1 2025 (some 0)).getD ([], [])).2)
    (by rfl) 1 [("Morning", ["A"])] (by rfl)
  exact ⟨(h.1 "Morning").mpr (by decide), h.2 "Morning" ["A"] (by rfl)⟩

/-- An unconstrained two-person roster; 5 days of week 0 of January 2025 with
two shifts give 10 slots, divisible by the roster size 2. -/
def wE9 : List Employee := [⟨"A", [], [], []⟩, ⟨"B", [], [], []⟩]

theorem fairness_spread_uniform_witness :
    (∀ e ∈ wE9, e.unavailable_dates = [] ∧ e.mandatory_dates = [] ∧
      e.assigned_shifts = []) ∧
    ((((days_to_schedule 2025 1 (some 0)).getD []).length *
      (["M", "E"] : List String).length) % wE9.length = 0) ∧
    (getE (((create_schedule wE9 ["M", "E"] 1 1 2025 (some 0)).getD ([], [])).2)
        0).assigned_shifts.length ≤
      (getE (((create_schedule wE9 ["M", "E"] 1 1 2025 (some 0)).getD ([], [])).2)
        1).assigned_shifts.length + 1 := by
  refine ⟨by decide, by decide, ?_⟩
  exact fairness_spread_uniform wE9 ["M", "E"] 1 1 2025 (some 0)
    (((create_schedule wE9 ["M", "E"] 1 1 2025 (some 0)).getD ([], [])).1)
    (((create_schedule wE9 ["M", "E"] 1 1 2025 (some 0)).getD ([], [])).2)
    (by rfl) (by decide) (by decide)
    (getE (((create_schedule wE9 ["M", "E"] 1 1 2025 (some 0)).getD ([], [])).2) 0)
    (getE_mem _ (by decide))
    (getE (((create_schedule wE9 ["M", "E"] 1 1 2025 (some 0)).getD ([], [])).2) 1)
    (getE_mem _ (by decide))

theorem invalid_week_fails_witness :
    (monthcalendar 2025 10).length ≤ 9 ∧
    create_schedule wE4 ["Morning"] 1 10 2025 (some 9) = none := by
  refine ⟨by decide, ?_⟩
  exact invalid_week_fails wE4 ["Morning"] 1 10 2025 9 (by decide)

end Scheduler
